import Mathlib

/-!
Shallow embedding of the mini-lsm immutable storage layer
(`src/block.rs`, `src/block/builder.rs`, `src/block/iterator.rs`,
`src/table.rs`, `src/table/builder.rs`, `src/table/iterator.rs`,
`src/iterators/merge_iterator.rs`).

Modelling conventions:
* Bytes are `Nat` (values < 256 in well-formed data); byte strings are `List Nat`.
* Machine integers are `Nat` with explicit `% 2^16` / `% 2^32` where Rust casts
  (`as u16`, `as u32`) truncate.
* Rust slice indexing that the relevant claims exercise only in bounds is
  modelled with `List.getD _ _ 0`; Rust operations that can panic or error on
  the inputs a claim is about (`Block::decode`, `SsTable::open`, file reads,
  `decode_block_meta`) return `Option`, with `none` standing for the
  panic/error outcome.
* Key comparison is lexicographic over raw bytes (Rust's `Ord` for `[u8]`).
-/

/-- Lexicographic strict order on byte strings: Rust's `Ord` for `[u8]`. -/
def bytesLt : List Nat → List Nat → Bool
  | _, [] => false
  | [], _ :: _ => true
  | a :: as, b :: bs => decide (a < b) || (decide (a = b) && bytesLt as bs)

/-- `a <= b` on byte strings, defined as in Rust via the total order. -/
def bytesLe (a b : List Nat) : Bool := !bytesLt b a

/-- Big-endian bytes of a `u16`; also performs the `as u16` truncation. -/
def u16be (n : Nat) : List Nat := [n / 256 % 256, n % 256]

/-- `u16::from_be_bytes`. -/
def readU16 (a b : Nat) : Nat := a * 256 + b

/-- `u32::from_be_bytes` on a 4-byte buffer (0 on length mismatch, which the
call sites rule out). -/
def readU32 (l : List Nat) : Nat :=
  match l with
  | [a, b, c, d] => ((a * 256 + b) * 256 + c) * 256 + d
  | _ => 0

/-- Big-endian bytes of a `u32` (with `as u32` truncation). -/
def u32be (n : Nat) : List Nat :=
  [n / 16777216 % 256, n / 65536 % 256, n / 256 % 256, n % 256]

/-- `chunks(2).map(get_u16)` over an even-length buffer. -/
def parsePairs : List Nat → List Nat
  | a :: b :: rest => readU16 a b :: parsePairs rest
  | [a] => [readU16 a 0]
  | [] => []

/-- A key-value entry. -/
structure Entry where
  key : List Nat
  value : List Nat
  deriving DecidableEq, Repr

/-- `key_len (u16 BE) ++ key ++ value_len (u16 BE) ++ value`: the byte layout
one `BlockBuilder::add` appends to `data`. -/
def encodeEntry (e : Entry) : List Nat :=
  u16be e.key.length ++ e.key ++ u16be e.value.length ++ e.value

/-- Concatenated entry encodings: the `data` region of a block. -/
def entriesData (es : List Entry) : List Nat :=
  (es.map encodeEntry).flatten

/-- Entry start offsets relative to `acc`: `[acc, acc+|e₀|, …]`, one per entry. -/
def offsetsFrom (acc : Nat) : List Entry → List Nat
  | [] => []
  | e :: es => acc :: offsetsFrom (acc + (encodeEntry e).length) es

/-- `Block` from `src/block.rs`. -/
structure Block where
  data : List Nat
  offsets : List Nat
  deriving DecidableEq, Repr

/-- `Block::encode`: `data ++ offsets (u16 BE each) ++ offsets.len() as u16`. -/
def Block.encode (b : Block) : List Nat :=
  b.data ++ (b.offsets.map u16be).flatten ++ u16be b.offsets.length

/-- `Block::decode`. `none` models the panics of the Rust code: the slice
`data[len-2..]` panics when `len < 2`, and the `usize` subtraction
`len - 2 - 2*n` (together with the subsequent slicing) panics when
`2 + 2*n > len`. The function has no error channel in the source: its Rust
signature returns `Block`, not `Result`. -/
def Block.decode (d : List Nat) : Option Block :=
  if d.length < 2 then none
  else
    let n := readU16 (d.getD (d.length - 2) 0) (d.getD (d.length - 1) 0)
    if d.length < 2 + 2 * n then none
    else
      let dataEnd := d.length - 2 - 2 * n
      some ⟨d.take dataEnd, parsePairs ((d.drop dataEnd).take (2 * n))⟩

/-- `key_len` header at offset `o` of a block's `data`
(`u16::from_be_bytes([data[o], data[o+1]])`). -/
def keyLenAt (d : List Nat) (o : Nat) : Nat := readU16 (d.getD o 0) (d.getD (o + 1) 0)

/-- The key stored at offset `o`: `data[o+2 .. o+2+key_len]`. -/
def keyAt (d : List Nat) (o : Nat) : List Nat := (d.drop (o + 2)).take (keyLenAt d o)

/-- `value_len` header following the key of the entry at offset `o`. -/
def valLenAt (d : List Nat) (o kl : Nat) : Nat :=
  readU16 (d.getD (o + 2 + kl) 0) (d.getD (o + 2 + kl + 1) 0)

/-- `BlockBuilder` from `src/block/builder.rs`. -/
structure BlockBuilder where
  offsets : List Nat
  data : List Nat
  block_size : Nat
  first_key : List Nat
  deriving DecidableEq, Repr

/-- `BlockBuilder::new`: note the offsets vector starts as `vec![0]`. -/
def BlockBuilder.new (block_size : Nat) : BlockBuilder := ⟨[0], [], block_size, []⟩

/-- `BlockBuilder::add`. Returns the Rust `bool` along with the updated
builder. The size check is taken verbatim from the source:
`data.len() + offsets.len() * 2 + key.len() + value.len() >= block_size`
(only when `data` is non-empty). `loc` is computed with the `as u16`
truncation of `entry.len()` and `u16` wrap-around addition. -/
def BlockBuilder.add (b : BlockBuilder) (key value : List Nat) : Bool × BlockBuilder :=
  if b.data.isEmpty then
    let entry := encodeEntry ⟨key, value⟩
    let loc := (b.offsets.getLast?.getD 0 + entry.length % 65536) % 65536
    (true, { b with first_key := key, data := b.data ++ entry, offsets := b.offsets ++ [loc] })
  else if b.block_size ≤ b.data.length + b.offsets.length * 2 + (key.length + value.length) then
    (false, b)
  else
    let entry := encodeEntry ⟨key, value⟩
    let loc := (b.offsets.getLast?.getD 0 + entry.length % 65536) % 65536
    (true, { b with data := b.data ++ entry, offsets := b.offsets ++ [loc] })

/-- `BlockBuilder::build`: pops the last offset, then pushes
`offsets.len() as u16` (the entry count) onto the offsets vector. -/
def BlockBuilder.build (b : BlockBuilder) : Block :=
  let offs := b.offsets.dropLast
  ⟨b.data, offs ++ [offs.length % 65536]⟩

/-- Modelled from the spec: `BlockBuilder::first_key()` is called by
`SsTableBuilder` but its definition is not under `src/`; per §4.2 it returns
"the key of the first added entry", which the builder stores in `first_key`. -/
def BlockBuilder.firstKey (b : BlockBuilder) : List Nat := b.first_key

/-- Modelled from the spec: `BlockBuilder::last_key()` is called by
`SsTableBuilder` but its definition is not under `src/`; per §4.2 it returns
"the key of the most recently added entry", read here from `data` at the
start offset of the last entry (`offsets[offsets.len()-2]`). -/
def BlockBuilder.lastKey (b : BlockBuilder) : List Nat :=
  keyAt b.data (b.offsets.getD (b.offsets.length - 2) 0)

/-- Fold a sequence of `add` calls, failing if any returns `false`
(so `some` means every add was a successful add). -/
def BlockBuilder.addAllOk (b : BlockBuilder) : List Entry → Option BlockBuilder
  | [] => some b
  | e :: es =>
    match b.add e.key e.value with
    | (true, b2) => b2.addAllOk es
    | (false, _) => none

/-- The block obtained by adding all of `es` (all accepted) and building. -/
def buildBlock (block_size : Nat) (es : List Entry) : Option Block :=
  ((BlockBuilder.new block_size).addAllOk es).map BlockBuilder.build

/-- `BlockIterator` from `src/block/iterator.rs`. -/
structure BlockIterator where
  block : Block
  key : List Nat
  value_range : Nat × Nat
  idx : Nat
  first_key : List Nat
  deriving DecidableEq, Repr

/-- `BlockIterator::new`. -/
def BlockIterator.new (blk : Block) : BlockIterator := ⟨blk, [], (0, 0), 0, []⟩

/-- `BlockIterator::is_valid`: the key is non-empty. -/
def BlockIterator.isValid (it : BlockIterator) : Bool := !it.key.isEmpty

/-- `BlockIterator::value`: the slice `block.data[value_range.0..value_range.1]`. -/
def BlockIterator.value (it : BlockIterator) : List Nat :=
  (it.block.data.drop it.value_range.1).take (it.value_range.2 - it.value_range.1)

/-- `BlockIterator::seek_to_first`: decode the entry at offset 0 and set
`idx := 1`. -/
def BlockIterator.seekToFirst (it : BlockIterator) : BlockIterator :=
  let d := it.block.data
  let keyLen := readU16 (d.getD 0 0) (d.getD 1 0)
  let key := (d.drop 2).take keyLen
  let valueLen := readU16 (d.getD (2 + keyLen) 0) (d.getD (2 + keyLen + 1) 0)
  { it with key := key, value_range := (2 + keyLen + 2, 2 + keyLen + 2 + valueLen),
            idx := 1, first_key := key }

/-- `BlockIterator::next`: invalidates when `idx == offsets.len() - 1`
(the final offsets slot holds the entry count, not an offset); otherwise
decodes the entry at `offsets[idx]` and increments `idx`. -/
def BlockIterator.next (it : BlockIterator) : BlockIterator :=
  if it.idx = it.block.offsets.length - 1 then { it with key := [] }
  else
    let d := it.block.data
    let offset := it.block.offsets.getD it.idx 0
    let keyLen := readU16 (d.getD offset 0) (d.getD (offset + 1) 0)
    let key := (d.drop (offset + 2)).take keyLen
    let valueLen := readU16 (d.getD (offset + 2 + keyLen) 0) (d.getD (offset + 2 + keyLen + 1) 0)
    { it with key := key,
              value_range := (offset + 2 + keyLen + 2, offset + 2 + keyLen + 2 + valueLen),
              idx := it.idx + 1 }

/-- The scan loop of `BlockIterator::seek_to_key`: starting at index `i`,
return the first `(i, offsets[i])` whose key is `≥ target`, or `none` once
`i == offsets.len() - 1` (which invalidates the iterator). `fuel` is
`offsets.length` at the top call, enough for the whole scan. -/
def seekLoopAux (blk : Block) (target : List Nat) : Nat → Nat → Option (Nat × Nat)
  | 0, _ => none
  | fuel + 1, i =>
    if i = blk.offsets.length - 1 then none
    else
      let offset := blk.offsets.getD i 0
      let k := keyAt blk.data offset
      if bytesLe target k then some (i, offset)
      else seekLoopAux blk target fuel (i + 1)

/-- `BlockIterator::seek_to_key`. On a hit the source sets
`idx := final_idx` (the index of the entry it positioned at, unlike
`seek_to_first`, which sets `idx` past the entry it positioned at). -/
def BlockIterator.seekToKey (it : BlockIterator) (target : List Nat) : BlockIterator :=
  match seekLoopAux it.block target it.block.offsets.length 0 with
  | none => { it with key := [] }
  | some (i, offset) =>
    let keyLen := keyLenAt it.block.data offset
    let key := keyAt it.block.data offset
    let valueLen := valLenAt it.block.data offset keyLen
    { it with key := key,
              value_range := (offset + 2 + keyLen + 2, offset + 2 + keyLen + 2 + valueLen),
              idx := i }

/-- `BlockIterator::create_and_seek_to_first`. -/
def BlockIterator.createAndSeekToFirst (blk : Block) : BlockIterator :=
  (BlockIterator.new blk).seekToFirst

/-- `BlockIterator::create_and_seek_to_key` (seek to first, then to the key). -/
def BlockIterator.createAndSeekToKey (blk : Block) (k : List Nat) : BlockIterator :=
  (BlockIterator.createAndSeekToFirst blk).seekToKey k

/-- Collect `(key, value)` pairs by repeatedly calling `next` while the
iterator is valid (`fuel` bounds the number of steps). -/
def BlockIterator.drainF : Nat → BlockIterator → List Entry
  | 0, _ => []
  | f + 1, it =>
    if it.isValid then ⟨it.key, it.value⟩ :: BlockIterator.drainF f it.next else []

/-- Strictly ascending keys (lexicographic). -/
def ascendingKeys : List Entry → Bool
  | [] => true
  | [_] => true
  | e₁ :: e₂ :: es => bytesLt e₁.key e₂.key && ascendingKeys (e₂ :: es)

/-- A well-formed block holding entries `es`: `data` is the concatenation of
the entry encodings, `offsets` is the entry start offsets followed by the
entry count (the shape `BlockBuilder::build` produces), keys are non-empty,
lengths fit in `u16`, the data region fits in `u16`, and keys are strictly
ascending. -/
def WFBlock (b : Block) (es : List Entry) : Prop :=
  b.data = entriesData es ∧
  b.offsets = offsetsFrom 0 es ++ [es.length] ∧
  es ≠ [] ∧
  (∀ e ∈ es, e.key ≠ [] ∧ e.key.length < 65536 ∧ e.value.length < 65536) ∧
  (entriesData es).length < 65536 ∧
  ascendingKeys es = true

instance (b : Block) (es : List Entry) : Decidable (WFBlock b es) :=
  show Decidable
      (b.data = entriesData es ∧
        b.offsets = offsetsFrom 0 es ++ [es.length] ∧
        es ≠ [] ∧
        (∀ e ∈ es, e.key ≠ [] ∧ e.key.length < 65536 ∧ e.value.length < 65536) ∧
        (entriesData es).length < 65536 ∧
        ascendingKeys es = true) from
    inferInstance

instance : Inhabited Entry := ⟨⟨[], []⟩⟩

/-- `BlockMeta` from `src/table.rs`. -/
structure BlockMeta where
  offset : Nat
  first_key : List Nat
  last_key : List Nat
  deriving DecidableEq, Repr

instance : Inhabited BlockMeta := ⟨⟨0, [], []⟩⟩

/-- One record of `BlockMeta::encode_block_meta`:
`offset:u32 ++ first_key_len:u16 ++ first_key ++ last_key_len:u16 ++ last_key`.
(The source also accumulates an unused `count`.) -/
def BlockMeta.encodeOne (m : BlockMeta) : List Nat :=
  u32be m.offset ++ u16be m.first_key.length ++ m.first_key ++
    u16be m.last_key.length ++ m.last_key

/-- `BlockMeta::encode_block_meta`: concatenation of the records. -/
def encodeBlockMeta (ms : List BlockMeta) : List Nat :=
  (ms.map BlockMeta.encodeOne).flatten

/-- `BlockMeta::decode_block_meta`: loop while bytes remain; each `get_u32` /
`get_u16` / `get_u8` that would overrun the buffer panics in the `bytes`
crate, modelled as `none`. `fuel` is the buffer length at the top call (each
record consumes at least one byte). -/
def decodeBlockMetaF : Nat → List Nat → Option (List BlockMeta)
  | _, [] => some []
  | 0, _ :: _ => none
  | fuel + 1, buf =>
    if buf.length < 4 then none
    else
      let off := readU32 (buf.take 4)
      let r1 := buf.drop 4
      if r1.length < 2 then none
      else
        let fkLen := readU16 (r1.getD 0 0) (r1.getD 1 0)
        let r2 := r1.drop 2
        if r2.length < fkLen then none
        else
          let fk := r2.take fkLen
          let r3 := r2.drop fkLen
          if r3.length < 2 then none
          else
            let lkLen := readU16 (r3.getD 0 0) (r3.getD 1 0)
            let r4 := r3.drop 2
            if r4.length < lkLen then none
            else
              let lk := r4.take lkLen
              match decodeBlockMetaF fuel (r4.drop lkLen) with
              | none => none
              | some ms => some (⟨off, fk, lk⟩ :: ms)

/-- `BlockMeta::decode_block_meta` at full fuel. -/
def decodeBlockMeta (buf : List Nat) : Option (List BlockMeta) :=
  decodeBlockMetaF buf.length buf

/-- `FileObject::read` (a positional `read_exact_at`): fails when the
requested range extends past the end of the file. The file object is
modelled by its byte contents. -/
def FileObject.read (file : List Nat) (offset len : Nat) : Option (List Nat) :=
  if offset + len ≤ file.length then some ((file.drop offset).take len) else none

/-- `Iterator::min` over byte-string keys (first minimum on ties). -/
def minKeyList (l : List (List Nat)) : Option (List Nat) :=
  l.foldl
    (fun acc k =>
      match acc with
      | none => some k
      | some m => if bytesLt k m then some k else some m)
    none

/-- `Iterator::max` over byte-string keys. -/
def maxKeyList (l : List (List Nat)) : Option (List Nat) :=
  l.foldl
    (fun acc k =>
      match acc with
      | none => some k
      | some m => if bytesLt m k then some k else some m)
    none

/-- `SsTable` from `src/table.rs`. The file object is its byte contents; the
block cache (an opaque external collaborator with pass-through load
semantics) is omitted. -/
structure SsTable where
  file : List Nat
  block_meta : List BlockMeta
  block_meta_offset : Nat
  id : Nat
  first_key : List Nat
  last_key : List Nat
  bloom : Option (List Nat)
  max_ts : Nat
  deriving DecidableEq, Repr

/-- `SsTable::open`: reads everything but the final 4 bytes as
`block_meta`, reads the final 4 bytes as `block_meta_offset`, decodes the
meta list from `block_meta[block_meta_offset..]`, and takes the min/max of
the decoded first/last keys (`.min().unwrap()` / `.max().unwrap()` panic on
an empty meta list, modelled as `none`). Returns `bloom: None, max_ts: 0`. -/
def SsTable.open (id : Nat) (file : List Nat) : Option SsTable :=
  if file.length < 4 then none
  else
    match FileObject.read file 0 (file.length - 4),
        FileObject.read file (file.length - 4) 4 with
    | some blockMetaBuf, some offBytes =>
      let block_meta_offset := readU32 offBytes
      if blockMetaBuf.length < block_meta_offset then none
      else
        match decodeBlockMeta (blockMetaBuf.drop block_meta_offset) with
        | none => none
        | some metas =>
          match minKeyList (metas.map BlockMeta.first_key),
              maxKeyList (metas.map BlockMeta.last_key) with
          | some fk, some lk =>
            some ⟨file, metas, block_meta_offset, id, fk, lk, none, 0⟩
          | _, _ => none
    | _, _ => none

/-- `SsTable::read_block`: reads `[meta[i].offset, right)` where `right` is
the next block's offset (or `block_meta_offset` for the last block) and
decodes it. -/
def SsTable.readBlock (t : SsTable) (i : Nat) : Option Block :=
  if t.block_meta.length ≤ i then none
  else
    let left := (t.block_meta.getD i default).offset
    let right :=
      if i = t.block_meta.length - 1 then t.block_meta_offset
      else (t.block_meta.getD (i + 1) default).offset
    match FileObject.read t.file left (right - left) with
    | none => none
    | some bytes => Block.decode bytes

/-- `SsTable::read_block_cached`: the block cache is an opaque keyed store
with at-most-one-loader pass-through semantics, so reads through it behave
as `read_block`. -/
def SsTable.readBlockCached (t : SsTable) (i : Nat) : Option Block :=
  t.readBlock i

/-- First index satisfying `p` (the linear scan in `find_block_idx`). -/
def firstIdxSat {α : Type} (p : α → Bool) : List α → Option Nat
  | [] => none
  | x :: xs => if p x then some 0 else (firstIdxSat p xs).map (· + 1)

/-- `SsTable::find_block_idx`: first block whose `last_key >= key`, else
`num_blocks - 1`. -/
def SsTable.findBlockIdx (t : SsTable) (key : List Nat) : Nat :=
  match firstIdxSat (fun m => bytesLe key m.last_key) t.block_meta with
  | some i => i
  | none => t.block_meta.length - 1

/-- `SsTableBuilder` from `src/table/builder.rs`. `key_hashes` is omitted:
it only feeds the Bloom filter through the opaque `farmhash::fingerprint32`
collaborator. -/
structure SsTableBuilder where
  builder : BlockBuilder
  first_key : List Nat
  last_key : List Nat
  data : List Nat
  meta : List BlockMeta
  block_size : Nat
  deriving DecidableEq, Repr

/-- `SsTableBuilder::new`. -/
def SsTableBuilder.new (block_size : Nat) : SsTableBuilder :=
  ⟨BlockBuilder.new block_size, [], [], [], [], block_size⟩

/-- `SsTableBuilder::add`: try the block builder; on a full block, record
the block's meta, encode and append the block, start a fresh builder and
re-add; afterwards update the table-level `first_key`/`last_key` bounds
(`self.first_key > self.builder.first_key()` is `bytesLt` of the latter). -/
def SsTableBuilder.add (s : SsTableBuilder) (key value : List Nat) : SsTableBuilder :=
  let r := s.builder.add key value
  let s1 :=
    if r.1 then { s with builder := r.2 }
    else
      let bm : BlockMeta := ⟨s.data.length, s.builder.firstKey, s.builder.lastKey⟩
      let blk := s.builder.build
      let fresh := BlockBuilder.new s.block_size
      { s with
          meta := s.meta ++ [bm],
          data := s.data ++ blk.encode,
          builder := (fresh.add key value).2 }
  let s2 :=
    if s1.first_key.isEmpty || bytesLt s1.builder.firstKey s1.first_key then
      { s1 with first_key := s1.builder.firstKey }
    else s1
  if s2.last_key.isEmpty || bytesLt s2.last_key s2.builder.lastKey then
    { s2 with last_key := s2.builder.lastKey }
  else s2

/-- Fold `SsTableBuilder::add` over a list of entries. -/
def SsTableBuilder.addAll (s : SsTableBuilder) : List Entry → SsTableBuilder
  | [] => s
  | e :: es => (s.add e.key e.value).addAll es

/-- `SsTableBuilder::build`. The Bloom filter implementation
(`table/bloom.rs`) is not under `src/`; Modelled from the spec: its encoded
bytes (bit array ++ `k:u8`, §4.4) are the opaque parameter `bloomEnc`.
Returns the file bytes written by `FileObject::create` together with the
returned `SsTable` (which keeps the in-memory `meta` and sets
`bloom: Some(..)`). Layout appended after the data blocks:
`encode_block_meta(meta) ++ meta_offset:u32 ++ bloom ++ bloom_offset:u32`. -/
def SsTableBuilder.build (s : SsTableBuilder) (id : Nat) (bloomEnc : List Nat) :
    List Nat × SsTable :=
  let bm : BlockMeta := ⟨s.data.length, s.builder.firstKey, s.builder.lastKey⟩
  let meta2 := s.meta ++ [bm]
  let blk := s.builder.build
  let data1 := s.data ++ blk.encode
  let extra := data1.length
  let data2 := data1 ++ encodeBlockMeta meta2 ++ u32be extra
  let bloomOffset := data2.length
  let data3 := data2 ++ bloomEnc ++ u32be bloomOffset
  (data3, ⟨data3, meta2, extra, id, s.first_key, s.last_key, some bloomEnc, 0⟩)

/-- The byte region that `SsTable::open` hands to `decode_block_meta`:
`file[0 .. len-4][u32(file[len-4..]) ..]` (a projection of `open`, with the
same guards). -/
def openMetaInput (file : List Nat) : Option (List Nat) :=
  if file.length < 4 then none
  else
    match FileObject.read file 0 (file.length - 4),
        FileObject.read file (file.length - 4) 4 with
    | some blockMetaBuf, some offBytes =>
      let block_meta_offset := readU32 offBytes
      if blockMetaBuf.length < block_meta_offset then none
      else some (blockMetaBuf.drop block_meta_offset)
    | _, _ => none

/-- `SsTableIterator` from `src/table/iterator.rs`. -/
structure SsTableIterator where
  table : SsTable
  blk_iter : BlockIterator
  blk_idx : Nat
  deriving DecidableEq, Repr

/-- `SsTableIterator::create_and_seek_to_first`. -/
def SsTableIterator.createAndSeekToFirst (t : SsTable) : Option SsTableIterator :=
  match t.readBlockCached 0 with
  | none => none
  | some blk => some ⟨t, BlockIterator.createAndSeekToFirst blk, 0⟩

/-- `SsTableIterator::seek_to_key_inner`. -/
def SsTableIterator.seekToKeyInner (t : SsTable) (key : List Nat) :
    Option (Nat × BlockIterator) :=
  let i := t.findBlockIdx key
  match t.readBlockCached i with
  | none => none
  | some blk =>
    let bi := BlockIterator.createAndSeekToKey blk key
    if bi.isValid then some (i, bi)
    else
      let i2 := i + 1
      if i2 < t.block_meta.length then
        match t.readBlockCached i2 with
        | none => none
        | some blk2 => some (i2, BlockIterator.createAndSeekToFirst blk2)
      else some (i2, bi)

/-- `SsTableIterator::seek_to_key`. -/
def SsTableIterator.seekToKey (it : SsTableIterator) (key : List Nat) :
    Option SsTableIterator :=
  match SsTableIterator.seekToKeyInner it.table key with
  | none => none
  | some r => some { it with blk_iter := r.2, blk_idx := r.1 }

/-- `SsTableIterator::create_and_seek_to_key`. -/
def SsTableIterator.createAndSeekToKey (t : SsTable) (key : List Nat) :
    Option SsTableIterator :=
  match SsTableIterator.createAndSeekToFirst t with
  | none => none
  | some it => it.seekToKey key

/-- `SsTableIterator::key` (delegates to the block iterator). -/
def SsTableIterator.key (it : SsTableIterator) : List Nat := it.blk_iter.key

/-- `SsTableIterator::value`. -/
def SsTableIterator.value (it : SsTableIterator) : List Nat := it.blk_iter.value

/-- `SsTableIterator::is_valid`. -/
def SsTableIterator.isValid (it : SsTableIterator) : Bool := it.blk_iter.isValid

/-- `SsTableIterator::next`: advance the block iterator; when it
invalidates, move to the next block (seeked to first) if one exists. -/
def SsTableIterator.next (it : SsTableIterator) : Option SsTableIterator :=
  let bi := it.blk_iter.next
  if bi.isValid then some { it with blk_iter := bi }
  else
    let ni := it.blk_idx + 1
    if ni < it.table.block_meta.length then
      match it.table.readBlockCached ni with
      | none => none
      | some blk =>
        some { it with blk_iter := BlockIterator.createAndSeekToFirst blk, blk_idx := ni }
    else some { it with blk_iter := bi, blk_idx := ni }

/-- Collect SST iterator entries by repeated `next` (fuel-bounded); `none`
if a `next` fails. -/
def SsTableIterator.drainF : Nat → SsTableIterator → Option (List Entry)
  | 0, _ => some []
  | f + 1, it =>
    if it.isValid then
      match it.next with
      | none => none
      | some it2 =>
        match SsTableIterator.drainF f it2 with
        | none => none
        | some rest => some (⟨it.key, it.value⟩ :: rest)
    else some []

/-- First key of an entry list (empty list: `[]`). -/
def firstKeyOf (es : List Entry) : List Nat :=
  match es with
  | [] => []
  | e :: _ => e.key

/-- Last key of an entry list (empty list: `[]`). -/
def lastKeyOf (es : List Entry) : List Nat := (es.getLastD default).key

/-- Blocks are pairwise ordered: each block's last key is strictly below the
next block's first key. -/
def ascendingBlocks : List (List Entry) → Bool
  | [] => true
  | [_] => true
  | es₁ :: es₂ :: rest =>
    bytesLt (lastKeyOf es₁) (firstKeyOf es₂) && ascendingBlocks (es₂ :: rest)

/-- `read_block i` succeeds and yields a block that is well-formed for `es`
(Bool-valued so that witnesses can evaluate it). -/
def readBlockWFb (t : SsTable) (i : Nat) (es : List Entry) : Bool :=
  match t.readBlock i with
  | some b => decide (WFBlock b es)
  | none => false

/-- A well-formed `SsTable` whose `i`-th block holds the entries `ess[i]`:
every block reads back well-formed, the meta records carry each block's
first/last key, and blocks are sorted and non-overlapping (spec §3). -/
def WFSst (t : SsTable) (ess : List (List Entry)) : Prop :=
  t.block_meta.length = ess.length ∧
  ess ≠ [] ∧
  (∀ i, i < ess.length → readBlockWFb t i (ess.getD i []) = true) ∧
  (∀ i, i < ess.length →
    (t.block_meta.getD i default).first_key = firstKeyOf (ess.getD i []) ∧
    (t.block_meta.getD i default).last_key = lastKeyOf (ess.getD i [])) ∧
  ascendingBlocks ess = true

instance (t : SsTable) (ess : List (List Entry)) : Decidable (WFSst t ess) :=
  show Decidable
      (t.block_meta.length = ess.length ∧
        ess ≠ [] ∧
        (∀ i, i < ess.length → readBlockWFb t i (ess.getD i []) = true) ∧
        (∀ i, i < ess.length →
          (t.block_meta.getD i default).first_key = firstKeyOf (ess.getD i []) ∧
          (t.block_meta.getD i default).last_key = lastKeyOf (ess.getD i [])) ∧
        ascendingBlocks ess = true) from
    inferInstance

/-- A `HeapWrapper` from `src/iterators/merge_iterator.rs`: a stream index
paired with a cursor over the remaining entries of one sorted run (the
`StorageIterator` here is an in-memory run: `key`/`value` read the head,
`next` drops it, `is_valid` is non-exhaustion; such cursors never error). -/
structure Cursor where
  idx : Nat
  entries : List Entry
  deriving DecidableEq, Repr

/-- `key()` of the cursor (empty when exhausted). -/
def Cursor.key (c : Cursor) : List Nat :=
  match c.entries with
  | [] => []
  | e :: _ => e.key

/-- `value()` of the cursor. -/
def Cursor.value (c : Cursor) : List Nat :=
  match c.entries with
  | [] => []
  | e :: _ => e.value

/-- `is_valid()` of the cursor. -/
def Cursor.valid (c : Cursor) : Bool := !c.entries.isEmpty

/-- `next()` of the cursor. -/
def Cursor.next (c : Cursor) : Cursor := ⟨c.idx, c.entries.tail⟩

/-- Pop-priority of the heap: `HeapWrapper`'s `Ord` compares
`(key, stream index)` and reverses, so the max-heap pops the smallest key,
ties broken by the smaller stream index. `popsBefore a b` says `a` pops
before `b`. -/
def popsBefore (a b : Cursor) : Bool :=
  bytesLt a.key b.key || (decide (a.key = b.key) && decide (a.idx < b.idx))

/-- Model of `BinaryHeap::push` under the `HeapWrapper` order: the heap is
a list kept sorted in pop order (the order is strict and total on cursors
with distinct stream indices, so the observable pop sequence of the real
heap is fully determined and equals this model's). -/
def heapPush (c : Cursor) : List Cursor → List Cursor
  | [] => [c]
  | h :: t => if popsBefore c h then c :: h :: t else h :: heapPush c t

/-- `MergeIterator` from `src/iterators/merge_iterator.rs`. -/
structure MergeIterator where
  iters : List Cursor
  current : Option Cursor
  deriving DecidableEq, Repr

/-- `MergeIterator::create`: push the valid cursors (tagged with their
stream index), then pop the top into `current`. -/
def MergeIterator.create (streams : List (List Entry)) : MergeIterator :=
  let heap :=
    (streams.enum.filter fun p => !p.2.isEmpty).foldl
      (fun h p => heapPush ⟨p.1, p.2⟩ h) []
  match heap with
  | [] => ⟨[], none⟩
  | c :: rest => ⟨rest, some c⟩

/-- Total number of entries left in a cursor list. -/
def heapSize (h : List Cursor) : Nat := (h.map fun c => c.entries.length).sum

/-- The same-key loop of `MergeIterator::next`: while the heap top's key
equals `k`, advance it through `PeekMut` (these cursors never error, so
"Case 1" never fires); pop it if it becomes invalid, otherwise it re-sifts
to its new key position. `fuel = heapSize + 1` suffices: every recursive
call removes one entry. -/
def drainEqF (k : List Nat) : Nat → List Cursor → List Cursor
  | 0, h => h
  | fuel + 1, h =>
    match h with
    | [] => []
    | c :: t =>
      if c.key = k then
        let c2 := c.next
        if c2.valid then drainEqF k fuel (heapPush c2 t)
        else drainEqF k fuel t
      else h

/-- `MergeIterator::next`: `none` models the `unwrap` panic when `current`
is absent. After the same-key drain, advance `current`; if it invalidates,
replace it by the heap top; otherwise swap with the heap top when the top
pops first. -/
def MergeIterator.next (m : MergeIterator) : Option MergeIterator :=
  match m.current with
  | none => none
  | some cur =>
    let heap1 := drainEqF cur.key (heapSize m.iters + 1) m.iters
    let cur2 := cur.next
    if !cur2.valid then
      match heap1 with
      | [] => some ⟨heap1, some cur2⟩
      | c :: t => some ⟨t, some c⟩
    else
      match heap1 with
      | [] => some ⟨[], some cur2⟩
      | c :: t =>
        if popsBefore c cur2 then some ⟨heapPush cur2 t, some c⟩
        else some ⟨c :: t, some cur2⟩

/-- `MergeIterator::key` (empty `KeySlice` when `current` is absent). -/
def MergeIterator.key (m : MergeIterator) : List Nat :=
  match m.current with
  | some c => c.key
  | none => []

/-- `MergeIterator::value`. -/
def MergeIterator.value (m : MergeIterator) : List Nat :=
  match m.current with
  | some c => c.value
  | none => []

/-- `MergeIterator::is_valid`. -/
def MergeIterator.isValid (m : MergeIterator) : Bool :=
  match m.current with
  | some c => c.valid
  | none => false

/-- Collect merge output by repeated `next` while valid (fuel-bounded). -/
def MergeIterator.drainF : Nat → MergeIterator → List Entry
  | 0, _ => []
  | f + 1, m =>
    if m.isValid then
      match m.next with
      | none => [⟨m.key, m.value⟩]
      | some m2 => ⟨m.key, m.value⟩ :: MergeIterator.drainF f m2
    else []

/-- One step of the valid-minimum selection: keep the pop-first cursor. -/
def minStep (acc : Option Cursor) (c : Cursor) : Option Cursor :=
  if c.valid then
    match acc with
    | none => some c
    | some m => if popsBefore c m then some c else acc
  else acc

/-- The smallest valid cursor by `(key, stream index)`, i.e. the stream the
spec says must supply the next output. -/
def minValidCursor (ss : List Cursor) : Option Cursor :=
  ss.foldl minStep none

/-- Advance a stream past key `k` when its head holds `k` (used by the
spec-side merge). -/
def advIfKey (k : List Nat) (s : Cursor) : Cursor :=
  if s.valid && decide (s.key = k) then s.next else s

/-- Modelled from the spec: the reference k-way merge (§4.8, §8
"Ordering"). At each step, over the non-exhausted indexed streams, take the
smallest head key — the value from the smallest-indexed stream holding that
key — and advance every stream whose head key equals it. -/
def mergeSpecF : Nat → List Cursor → List Entry
  | 0, _ => []
  | f + 1, ss =>
    match minValidCursor ss with
    | none => []
    | some c => ⟨c.key, c.value⟩ :: mergeSpecF f (ss.map (advIfKey c.key))

/-- The cursor multiset a merge state carries: `current` (even when
exhausted) followed by the heap. -/
def curHeap (m : MergeIterator) : List Cursor :=
  match m.current with
  | some c => c :: m.iters
  | none => []

/-- The indexed cursors of a stream list (stream `i` gets index `i`). -/
def cursorsOf (streams : List (List Entry)) : List Cursor :=
  streams.enum.map fun p => ⟨p.1, p.2⟩

/-- Total entry count of a stream list. -/
def totalSize (streams : List (List Entry)) : Nat :=
  (streams.map List.length).sum

/-- The builder's offsets vector after successfully adding `es` starting
from accumulated offset `a`: each entry's start plus a trailing slot holding
the running end offset, with the `u16` truncation/wrap of `add`. -/
def scanOffsets (a : Nat) : List Entry → List Nat
  | [] => [a]
  | e :: es => a :: scanOffsets ((a + (encodeEntry e).length % 65536) % 65536) es

/-- The single-entry SST build of C1's failing input: entries
`[("a","1")]`, block size 4096; `bloomEnc` stays abstract. -/
def sstFileOf (bloomEnc : List Nat) : List Nat :=
  (SsTableBuilder.build (SsTableBuilder.addAll (SsTableBuilder.new 4096) [⟨[97], [49]⟩])
    0 bloomEnc).1

/-- The bytes `sstFileOf` writes before the bloom region: the encoded block
(12 bytes), the encoded meta record (10 bytes, at offset 12), and
`meta_offset = 12` as `u32`. -/
def sstPre26 : List Nat :=
  [0, 1, 97, 0, 1, 49, 0, 0, 0, 1, 0, 2,
   0, 0, 0, 0, 0, 1, 97, 0, 1, 97,
   0, 0, 0, 12]

/-- A 24-byte file whose meta region (at offset 0) decodes to two meta
records in descending key order: `("b","b")` then `("a","a")`. -/
def metaOnlyFile : List Nat :=
  [0, 0, 0, 0, 0, 1, 98, 0, 1, 98,
   0, 0, 0, 0, 0, 1, 97, 0, 1, 97,
   0, 0, 0, 0]

/-- The table `SsTable::open` returns on `metaOnlyFile`. -/
def tMetaOnly : SsTable :=
  ⟨metaOnlyFile, [⟨0, [98], [98]⟩, ⟨0, [97], [97]⟩], 0, 0, [97], [98], none, 0⟩

/-- Concrete two-entry well-formed block (entries `("a","1"), ("b","2")`). -/
def wBlk : Block := ⟨[0, 1, 97, 0, 1, 49, 0, 1, 98, 0, 1, 50], [0, 6, 2]⟩

/-- The entries of `wBlk`. -/
def wEs : List Entry := [⟨[97], [49]⟩, ⟨[98], [50]⟩]

/-- Concrete two-block SST file: block 0 holds `("a","1")`, block 1 holds
`("c","3")`. -/
def wSstFile : List Nat :=
  [0, 1, 97, 0, 1, 49, 0, 0, 0, 1, 0, 2,
   0, 1, 99, 0, 1, 51, 0, 0, 0, 1, 0, 2]

/-- A well-formed two-block `SsTable` over `wSstFile`. -/
def wSst : SsTable :=
  ⟨wSstFile, [⟨0, [97], [97]⟩, ⟨12, [99], [99]⟩], 24, 0, [97], [99], none, 0⟩

/-- The entries of `wSst`, block by block. -/
def wEss : List (List Entry) := [[⟨[97], [49]⟩], [⟨[99], [51]⟩]]

/-- An iterator over `wSst` (any position; `seek_to_key` only uses the table). -/
def wSstIt : SsTableIterator := ⟨wSst, BlockIterator.new wBlk, 0⟩

theorem bytesLt_irrefl (a : List Nat) : bytesLt a a = false := by
  induction a with
  | nil => rfl
  | cons x xs ih => simp [bytesLt, ih]

theorem bytesLt_asymm : ∀ a b : List Nat, bytesLt a b = true → bytesLt b a = false
  | _, [], h => by simp [bytesLt] at h
  | [], _ :: _, _ => rfl
  | a :: as, b :: bs, h => by
    simp only [bytesLt, Bool.or_eq_true, decide_eq_true_eq, Bool.and_eq_true] at h ⊢
    rcases h with h | ⟨rfl, h⟩
    · simp only [Bool.or_eq_false_iff, Bool.and_eq_false_iff, decide_eq_false_iff_not]
      exact ⟨by omega, Or.inl (by omega)⟩
    · simp [bytesLt_asymm as bs h]

theorem bytesLt_trichotomy (a b : List Nat) :
    bytesLt a b = true ∨ a = b ∨ bytesLt b a = true := by
  induction a generalizing b with
  | nil => cases b <;> simp [bytesLt]
  | cons x xs ih =>
    cases b with
    | nil => simp [bytesLt]
    | cons y ys =>
      rcases Nat.lt_trichotomy x y with h | h | h
      · left; simp [bytesLt, h]
      · subst h
        rcases ih ys with h2 | h2 | h2
        · left; simp [bytesLt, h2]
        · right; left; simp [h2]
        · right; right; simp [bytesLt, h2]
      · right; right; simp [bytesLt, h]

theorem bytesLt_trans : ∀ a b c : List Nat,
    bytesLt a b = true → bytesLt b c = true → bytesLt a c = true
  | _, _, [], _, h2 => by simp [bytesLt] at h2
  | _, [], _ :: _, h1, _ => by simp [bytesLt] at h1
  | [], _ :: _, _ :: _, _, _ => rfl
  | a :: as, b :: bs, c :: cs, h1, h2 => by
    simp only [bytesLt, Bool.or_eq_true, decide_eq_true_eq, Bool.and_eq_true] at h1 h2 ⊢
    rcases h1 with h1 | ⟨rfl, h1⟩ <;> rcases h2 with h2 | ⟨rfl, h2⟩
    · left; omega
    · left; exact h1
    · left; exact h2
    · right; exact ⟨rfl, bytesLt_trans as bs cs h1 h2⟩

theorem bytesLe_iff (a b : List Nat) :
    bytesLe a b = true ↔ bytesLt a b = true ∨ a = b := by
  constructor
  · intro h
    rcases bytesLt_trichotomy a b with h2 | h2 | h2
    · exact Or.inl h2
    · exact Or.inr h2
    · simp [bytesLe, h2] at h
  · intro h
    rcases h with h | rfl
    · simp [bytesLe, bytesLt_asymm _ _ h]
    · simp [bytesLe, bytesLt_irrefl]

theorem bytesLe_refl (a : List Nat) : bytesLe a a = true := by
  simp [bytesLe, bytesLt_irrefl]

theorem bytesLe_of_lt {a b : List Nat} (h : bytesLt a b = true) : bytesLe a b = true :=
  (bytesLe_iff a b).2 (Or.inl h)

theorem bytesLt_of_not_le {a b : List Nat} (h : bytesLe a b = false) : bytesLt b a = true := by
  simp [bytesLe] at h
  exact h

theorem bytesLe_of_not_lt {a b : List Nat} (h : bytesLt a b = false) : bytesLe b a = true := by
  simp [bytesLe, h]

theorem bytesLt_of_le_of_lt {a b c : List Nat}
    (h1 : bytesLe a b = true) (h2 : bytesLt b c = true) : bytesLt a c = true := by
  rcases (bytesLe_iff a b).1 h1 with h | rfl
  · exact bytesLt_trans _ _ _ h h2
  · exact h2

theorem bytesLt_of_lt_of_le {a b c : List Nat}
    (h1 : bytesLt a b = true) (h2 : bytesLe b c = true) : bytesLt a c = true := by
  rcases (bytesLe_iff b c).1 h2 with h | rfl
  · exact bytesLt_trans _ _ _ h1 h
  · exact h1

theorem bytesLe_trans {a b c : List Nat}
    (h1 : bytesLe a b = true) (h2 : bytesLe b c = true) : bytesLe a c = true := by
  rcases (bytesLe_iff a b).1 h1 with h | rfl
  · exact bytesLe_of_lt (bytesLt_of_lt_of_le h h2)
  · exact h2

theorem readU16_u16be {n : Nat} (h : n < 65536) :
    readU16 (u16be n).head! (u16be n).tail.head! = n := by
  simp only [u16be, readU16, List.head!, List.tail]
  omega

theorem parsePairs_u16be_flatten (l : List Nat) :
    parsePairs ((l.map u16be).flatten) = l.map (· % 65536) := by
  induction l with
  | nil => rfl
  | cons x xs ih =>
    simp only [List.map_cons, List.flatten_cons, u16be, List.cons_append, List.nil_append,
      parsePairs, ih, readU16]
    congr 1
    omega

theorem encodeEntry_length (e : Entry) :
    (encodeEntry e).length = 4 + e.key.length + e.value.length := by
  simp [encodeEntry, u16be]; omega

theorem entriesData_cons (e : Entry) (es : List Entry) :
    entriesData (e :: es) = encodeEntry e ++ entriesData es := by
  simp [entriesData]

theorem entriesData_append (xs ys : List Entry) :
    entriesData (xs ++ ys) = entriesData xs ++ entriesData ys := by
  simp [entriesData]

theorem entriesData_ne_nil {es : List Entry} (h : es ≠ []) : entriesData es ≠ [] := by
  cases es with
  | nil => exact absurd rfl h
  | cons e es =>
    rw [entriesData_cons]
    intro hc
    have hlen := congrArg List.length hc
    rw [List.length_append, encodeEntry_length] at hlen
    simp at hlen

theorem offsetsFrom_length (a : Nat) (es : List Entry) :
    (offsetsFrom a es).length = es.length := by
  induction es generalizing a with
  | nil => rfl
  | cons e es ih => simp [offsetsFrom, ih]

theorem offsetsFrom_getD_shift (es : List Entry) :
    ∀ (a i : Nat), i < es.length →
      (offsetsFrom a es).getD i 0 = a + (offsetsFrom 0 es).getD i 0 := by
  induction es with
  | nil => intro a i h; simp at h
  | cons e es ih =>
    intro a i h
    cases i with
    | zero => simp [offsetsFrom]
    | succ i =>
      simp only [offsetsFrom, List.getD_cons_succ]
      have h2 : i < es.length := by simpa using h
      rw [ih (a + (encodeEntry e).length) i h2, ih (0 + (encodeEntry e).length) i h2]
      omega

theorem scanOffsets_ne_nil (a : Nat) (es : List Entry) : scanOffsets a es ≠ [] := by
  cases es <;> simp [scanOffsets]

theorem scanOffsets_length (a : Nat) (es : List Entry) :
    (scanOffsets a es).length = es.length + 1 := by
  induction es generalizing a with
  | nil => rfl
  | cons e es ih => simp [scanOffsets, ih]

theorem scanOffsets_append (es : List Entry) :
    ∀ (a : Nat) (e : Entry),
      scanOffsets a (es ++ [e]) =
        scanOffsets a es ++
          [((scanOffsets a es).getLast?.getD 0 + (encodeEntry e).length % 65536) % 65536] := by
  induction es with
  | nil => intro a e; simp [scanOffsets]
  | cons x xs ih =>
    intro a e
    have hcons : ∀ (b : Nat) (l : List Nat), l ≠ [] → (b :: l).getLast?.getD 0 = l.getLast?.getD 0 := by
      intro b l hl
      cases l with
      | nil => exact absurd rfl hl
      | cons c t => simp [List.getLast?_cons_cons]
    simp only [List.cons_append, scanOffsets, hcons a _ (scanOffsets_ne_nil _ _), List.append_eq]
    rw [ih]

theorem scanOffsets_eq_offsetsFrom (es : List Entry) :
    ∀ a : Nat, a + (entriesData es).length < 65536 →
      scanOffsets a es = offsetsFrom a es ++ [a + (entriesData es).length] := by
  induction es with
  | nil => intro a h; simp [scanOffsets, offsetsFrom, entriesData]
  | cons e es ih =>
    intro a h
    rw [entriesData_cons] at h
    simp only [List.length_append] at h
    have hL : (encodeEntry e).length % 65536 = (encodeEntry e).length := Nat.mod_eq_of_lt (by omega)
    have hAL : (a + (encodeEntry e).length) % 65536 = a + (encodeEntry e).length :=
      Nat.mod_eq_of_lt (by omega)
    simp only [scanOffsets, offsetsFrom, hL, hAL, entriesData_cons, List.length_append]
    rw [ih (a + (encodeEntry e).length) (by omega)]
    simp [List.cons_append]
    omega

theorem addAllOk_append (xs : List Entry) :
    ∀ (b : BlockBuilder) (ys : List Entry),
      b.addAllOk (xs ++ ys) = (b.addAllOk xs).bind (fun b1 => b1.addAllOk ys) := by
  induction xs with
  | nil => intro b ys; simp [BlockBuilder.addAllOk]
  | cons x xs ih =>
    intro b ys
    simp only [List.cons_append, BlockBuilder.addAllOk]
    cases h : b.add x.key x.value with
    | mk ok b2 =>
      cases ok with
      | true => simp [ih]
      | false => simp

theorem add_true_state (b : BlockBuilder) (k v : List Nat) (b2 : BlockBuilder)
    (h : b.add k v = (true, b2)) :
    b2.data = b.data ++ encodeEntry ⟨k, v⟩ ∧
    b2.offsets = b.offsets ++ [(b.offsets.getLast?.getD 0 + (encodeEntry ⟨k, v⟩).length % 65536) % 65536] ∧
    b2.block_size = b.block_size := by
  unfold BlockBuilder.add at h
  split at h
  · exact ⟨by cases h; rfl, by cases h; rfl, by cases h; rfl⟩
  · split at h
    · cases h
    · exact ⟨by cases h; rfl, by cases h; rfl, by cases h; rfl⟩

theorem addAllOk_state (es : List Entry) :
    ∀ (pre : List Entry) (b b2 : BlockBuilder),
      b.offsets = scanOffsets 0 pre →
      b.data = entriesData pre →
      b.addAllOk es = some b2 →
      b2.offsets = scanOffsets 0 (pre ++ es) ∧ b2.data = entriesData (pre ++ es) ∧
        b2.block_size = b.block_size := by
  induction es with
  | nil =>
    intro pre b b2 ho hd h
    simp [BlockBuilder.addAllOk] at h
    subst h
    simp [ho, hd]
  | cons e es ih =>
    intro pre b b2 ho hd h
    simp only [BlockBuilder.addAllOk] at h
    cases hadd : b.add e.key e.value with
    | mk ok bmid =>
      rw [hadd] at h
      cases ok with
      | false => simp at h
      | true =>
        simp only at h
        obtain ⟨hd2, ho2, hbs2⟩ := add_true_state b e.key e.value bmid hadd
        have hoff : bmid.offsets = scanOffsets 0 (pre ++ [e]) := by
          rw [ho2, ho, scanOffsets_append]
        have hdat : bmid.data = entriesData (pre ++ [e]) := by
          rw [hd2, hd, entriesData_append]
          simp [entriesData]
        have := ih (pre ++ [e]) bmid b2 hoff hdat h
        rw [List.append_assoc] at this
        simp only [List.singleton_append] at this
        exact ⟨this.1, this.2.1, this.2.2.trans hbs2⟩

theorem getD_at_len (l₁ l₂ : List Nat) (n m : Nat) (h : n = l₁.length + m) :
    (l₁ ++ l₂).getD n 0 = l₂.getD m 0 := by
  subst h
  rw [List.getD_append_right _ _ _ _ (Nat.le_add_right _ _)]
  congr 1
  omega

theorem drop_at_len (l₁ l₂ : List Nat) (n m : Nat) (h : n = l₁.length + m) :
    (l₁ ++ l₂).drop n = l₂.drop m := by
  subst h
  rw [← List.drop_drop]
  simp [List.drop_left]

theorem entriesData_lookup (es : List Entry) :
    ∀ i : Nat, i < es.length →
      (∀ e ∈ es, e.key.length < 65536 ∧ e.value.length < 65536) →
      keyLenAt (entriesData es) ((offsetsFrom 0 es).getD i 0) = (es.getD i default).key.length ∧
      keyAt (entriesData es) ((offsetsFrom 0 es).getD i 0) = (es.getD i default).key ∧
      valLenAt (entriesData es) ((offsetsFrom 0 es).getD i 0) (es.getD i default).key.length =
        (es.getD i default).value.length ∧
      ((entriesData es).drop
          ((offsetsFrom 0 es).getD i 0 + 2 + (es.getD i default).key.length + 2)).take
          (es.getD i default).value.length = (es.getD i default).value := by
  induction es with
  | nil => intro i h; simp at h
  | cons e es ih =>
    intro i hi hb
    have hkl : e.key.length < 65536 := (hb e (by simp)).1
    have hvl : e.value.length < 65536 := (hb e (by simp)).2
    cases i with
    | zero =>
      have hoff : (offsetsFrom 0 (e :: es)).getD 0 0 = 0 := by
        simp [offsetsFrom]
      have hget : ((e :: es).getD 0 default) = e := by simp
      rw [hoff, hget]
      have hklen : keyLenAt (entriesData (e :: es)) 0 = e.key.length := by
        unfold keyLenAt
        rw [entriesData_cons]
        unfold encodeEntry
        rw [show u16be e.key.length ++ e.key ++ u16be e.value.length ++ e.value ++ entriesData es
            = e.key.length / 256 % 256 :: e.key.length % 256 ::
              (e.key ++ u16be e.value.length ++ e.value ++ entriesData es) by
          simp [u16be]]
        simp [readU16]
        omega
      refine ⟨hklen, ?_, ?_, ?_⟩
      · unfold keyAt
        rw [hklen, entriesData_cons]
        unfold encodeEntry
        rw [show (u16be e.key.length ++ e.key ++ u16be e.value.length ++ e.value) ++ entriesData es
            = u16be e.key.length ++ (e.key ++ (u16be e.value.length ++ e.value ++ entriesData es)) by
          simp]
        rw [drop_at_len _ _ 2 0 (by simp [u16be])]
        simp [List.take_left']
      · unfold valLenAt
        rw [entriesData_cons]
        unfold encodeEntry
        rw [show (u16be e.key.length ++ e.key ++ u16be e.value.length ++ e.value) ++ entriesData es
            = (u16be e.key.length ++ e.key) ++
              (e.value.length / 256 % 256 :: e.value.length % 256 :: (e.value ++ entriesData es)) by
          simp [u16be]]
        rw [getD_at_len _ _ (0 + 2 + e.key.length) 0 (by simp [u16be]; omega),
          getD_at_len _ _ (0 + 2 + e.key.length + 1) 1 (by simp [u16be]; omega)]
        simp [readU16]
        omega
      · rw [entriesData_cons]
        unfold encodeEntry
        rw [show (u16be e.key.length ++ e.key ++ u16be e.value.length ++ e.value) ++ entriesData es
            = (u16be e.key.length ++ e.key ++ u16be e.value.length) ++ (e.value ++ entriesData es) by
          simp]
        rw [drop_at_len _ _ (0 + 2 + e.key.length + 2) 0 (by simp [u16be]; omega)]
        simp [List.take_left']
    | succ i =>
      have hi2 : i < es.length := by simpa using hi
      have hb2 : ∀ x ∈ es, x.key.length < 65536 ∧ x.value.length < 65536 := by
        intro x hx; exact hb x (by simp [hx])
      have hoff : (offsetsFrom 0 (e :: es)).getD (i + 1) 0 =
          (encodeEntry e).length + (offsetsFrom 0 es).getD i 0 := by
        show (0 :: offsetsFrom (0 + (encodeEntry e).length) es).getD (i + 1) 0 = _
        rw [List.getD_cons_succ, Nat.zero_add, offsetsFrom_getD_shift es _ i hi2]
      have hget : ((e :: es).getD (i + 1) default) = es.getD i default := by
        simp
      obtain ⟨ih1, ih2, ih3, ih4⟩ := ih i hi2 hb2
      rw [hoff, hget, entriesData_cons]
      refine ⟨?_, ?_, ?_, ?_⟩
      · unfold keyLenAt
        rw [getD_at_len _ _ _ ((offsetsFrom 0 es).getD i 0) rfl,
          getD_at_len _ _ _ ((offsetsFrom 0 es).getD i 0 + 1) (by omega)]
        exact ih1
      · unfold keyAt keyLenAt
        rw [drop_at_len _ _ _ ((offsetsFrom 0 es).getD i 0 + 2) (by omega),
          getD_at_len _ _ _ ((offsetsFrom 0 es).getD i 0) rfl,
          getD_at_len _ _ _ ((offsetsFrom 0 es).getD i 0 + 1) (by omega)]
        exact ih2
      · unfold valLenAt
        rw [getD_at_len _ _ _ ((offsetsFrom 0 es).getD i 0 + 2 + (es.getD i default).key.length)
            (by omega),
          getD_at_len _ _ _ ((offsetsFrom 0 es).getD i 0 + 2 + (es.getD i default).key.length + 1)
            (by omega)]
        exact ih3
      · rw [drop_at_len _ _ _ ((offsetsFrom 0 es).getD i 0 + 2 + (es.getD i default).key.length + 2)
            (by omega)]
        exact ih4

theorem readU32_u32be (n : Nat) (h : n < 4294967296) : readU32 (u32be n) = n := by
  simp [readU32, u32be]
  omega

theorem minKeyList_ne_nil {l : List (List Nat)} {k : List Nat}
    (h : minKeyList l = some k) : l ≠ [] := by
  intro hl
  subst hl
  simp [minKeyList] at h

theorem open_inversion (id : Nat) (file : List Nat) (t : SsTable)
    (h : SsTable.open id file = some t) :
    t.bloom = none ∧ t.max_ts = 0 ∧
    minKeyList (t.block_meta.map BlockMeta.first_key) = some t.first_key ∧
    maxKeyList (t.block_meta.map BlockMeta.last_key) = some t.last_key ∧
    t.block_meta ≠ [] := by
  unfold SsTable.open at h
  split at h
  · exact absurd h (by simp)
  · split at h
    case h_1 bmBuf offBytes heq1 heq2 =>
      dsimp only at h
      split at h
      · exact absurd h (by simp)
      · split at h
        case h_1 hdec => exact absurd h (by simp)
        case h_2 metas hdec =>
          split at h
          case h_1 fk lk hmin hmax =>
            rw [Option.some_inj] at h
            subst h
            refine ⟨rfl, rfl, hmin, hmax, ?_⟩
            intro hnil
            have hmetas : metas = [] := hnil
            rw [hmetas] at hmin
            simp [minKeyList] at hmin
          case h_2 => exact absurd h (by simp)
    case h_2 => exact absurd h (by simp)

/-- C10: whenever `SsTable::open` succeeds, the returned table has
`bloom = None` and `max_ts = 0` — `open` never reconstructs the Bloom filter
— while the table returned directly by `SsTableBuilder::build` carries
`bloom = Some(..)`, so bloom-based pruning only exists on the built value. -/
theorem c10_open_no_bloom (id : Nat) (file : List Nat) (t : SsTable)
    (h : SsTable.open id file = some t) :
    t.bloom = none ∧ t.max_ts = 0 ∧
    (∀ (s : SsTableBuilder) (sid : Nat) (blm : List Nat),
      ((s.build sid blm).2).bloom = some blm) := by
  obtain ⟨h1, h2, -, -, -⟩ := open_inversion id file t h
  exact ⟨h1, h2, fun s sid blm => rfl⟩

/-- C10 witness: a concrete successful `open`. -/
theorem c10_witness :
    SsTable.open 0 metaOnlyFile = some tMetaOnly ∧
    (tMetaOnly.bloom = none ∧ tMetaOnly.max_ts = 0 ∧
      ∀ (s : SsTableBuilder) (sid : Nat) (blm : List Nat),
        ((s.build sid blm).2).bloom = some blm) :=
  ⟨by decide, c10_open_no_bloom 0 metaOnlyFile tMetaOnly (by decide)⟩

/-- C9 counterexample: a file `SsTable::open` accepts whose decoded meta
list is not ascending; the table's `first_key` is the minimum `[97]`, not
`meta[0].first_key = [98]` as the claim states. -/
theorem c9_counterexample :
    (SsTable.open 0 metaOnlyFile).map
        (fun t => (t.first_key, (t.block_meta.getD 0 default).first_key)) =
      some ([97], [98]) ∧ ([97] : List Nat) ≠ [98] := by
  exact ⟨by decide, by decide⟩

/-- C9 (amended): a successful `SsTable::open` sets `first_key` to the
minimum of the decoded metas' first keys and `last_key` to the maximum of
their last keys (for a sorted meta list these coincide with
`meta[0].first_key` / `meta[last].last_key`). -/
theorem c9_open_first_last_min_max (id : Nat) (file : List Nat) (t : SsTable)
    (h : SsTable.open id file = some t) :
    minKeyList (t.block_meta.map BlockMeta.first_key) = some t.first_key ∧
    maxKeyList (t.block_meta.map BlockMeta.last_key) = some t.last_key ∧
    t.block_meta ≠ [] := by
  obtain ⟨-, -, h3, h4, h5⟩ := open_inversion id file t h
  exact ⟨h3, h4, h5⟩

/-- C9 witness: the amended statement at a concrete successful `open`. -/
theorem c9_witness :
    SsTable.open 0 metaOnlyFile = some tMetaOnly ∧
    (minKeyList (tMetaOnly.block_meta.map BlockMeta.first_key) = some tMetaOnly.first_key ∧
      maxKeyList (tMetaOnly.block_meta.map BlockMeta.last_key) = some tMetaOnly.last_key ∧
      tMetaOnly.block_meta ≠ []) :=
  ⟨by decide, c9_open_first_last_min_max 0 metaOnlyFile tMetaOnly (by decide)⟩

/-- C8 counterexample: `Block::decode` on the malformed buffers the claim
names (here `[0,1]`: length 2 whose claimed count 1 needs 4 bytes, and the
empty buffer of length `< 2`) panics — `none` in this model is the Rust
panic (index/underflow), not an error value: the source's `decode` returns
`Block`, not `Result`, and no `CorruptBlock` error exists in the code. -/
theorem c8_counterexample :
    Block.decode [0, 1] = none ∧ Block.decode [] = none := by
  exact ⟨by decide, by decide⟩

/-- C8 (amended): on every malformed buffer — length below 2, or claimed
entry count `n` with `2 + 2n` exceeding the length — `Block::decode`
panics (slice-bounds/`usize`-underflow), modelled as `none`; it has no
error channel, so the corruption never surfaces as a `CorruptBlock` error
nor as a silently wrong `Block`. -/
theorem c8_decode_malformed_panics (d : List Nat)
    (h : d.length < 2 ∨
      d.length < 2 + 2 * readU16 (d.getD (d.length - 2) 0) (d.getD (d.length - 1) 0)) :
    Block.decode d = none := by
  unfold Block.decode
  rcases h with h | h
  · simp [h]
  · by_cases h1 : d.length < 2
    · simp [h1]
    · simp only [h1, if_false]
      rw [if_pos h]

/-- C8 witness: the amended statement at the concrete buffer `[0,1]`. -/
theorem c8_witness :
    (([0, 1] : List Nat).length < 2 ∨
      ([0, 1] : List Nat).length <
        2 + 2 * readU16 (([0, 1] : List Nat).getD 0 0) (([0, 1] : List Nat).getD 1 0)) ∧
    Block.decode [0, 1] = none :=
  ⟨by decide, c8_decode_malformed_panics [0, 1] (by decide)⟩

/-- C2 (code bug): on the block built from `[("a","1"),("b","2")]`,
`seek_to_key("a")` positions at `("a","1")` but leaves `idx` at the sought
entry (unlike `seek_to_first`, which leaves `idx` past it), so the next
`next()` re-reads entry 0: the scan from the seek yields `("a","1")` twice
before `("b","2")`, contradicting the claim that each entry is observed
exactly once. -/
theorem c2_seek_then_next_duplicates :
    buildBlock 4096 [⟨[97], [49]⟩, ⟨[98], [50]⟩] =
      some ⟨[0, 1, 97, 0, 1, 49, 0, 1, 98, 0, 1, 50], [0, 6, 2]⟩ ∧
    BlockIterator.drainF 10
        (BlockIterator.createAndSeekToKey
          ⟨[0, 1, 97, 0, 1, 49, 0, 1, 98, 0, 1, 50], [0, 6, 2]⟩ [97]) =
      [⟨[97], [49]⟩, ⟨[97], [49]⟩, ⟨[98], [50]⟩] ∧
    BlockIterator.drainF 10
        (BlockIterator.createAndSeekToFirst
          ⟨[0, 1, 97, 0, 1, 49, 0, 1, 98, 0, 1, 50], [0, 6, 2]⟩) =
      [⟨[97], [49]⟩, ⟨[98], [50]⟩] := by
  exact ⟨by decide, by decide, by decide⟩

theorem add_false_iff (b : BlockBuilder) (k v : List Nat) :
    (b.add k v).1 = false ↔
      b.data ≠ [] ∧
        b.block_size ≤ b.data.length + b.offsets.length * 2 + (k.length + v.length) := by
  unfold BlockBuilder.add
  by_cases hd : b.data.isEmpty
  · simp [hd, List.isEmpty_iff.mp hd]
  · have hne : b.data ≠ [] := by
      intro hnil; rw [hnil] at hd; exact hd rfl
    by_cases hs : b.block_size ≤ b.data.length + b.offsets.length * 2 + (k.length + v.length)
    · simp [hd, hs, hne]
    · simp [hd, hs, hne]

/-- C6 counterexample: with `target_size = 20`, adding `("a","")` and then
`("b", 9-byte value)` both succeed (the map is `some`), yet the finalized-
size estimate `data.len + 2·entries + 2` is `25 ≥ 20` with 2 entries — the
claim's "estimate < target_size or exactly one entry" fails, and the
second `add` returned `true` although appending pushed the estimate past
`target_size`. -/
theorem c6_counterexample :
    ((BlockBuilder.new 20).addAllOk
          [⟨[97], []⟩, ⟨[98], [0, 0, 0, 0, 0, 0, 0, 0, 0]⟩]).map
        (fun b => (b.data.length + 2 * (b.offsets.length - 1) + 2, b.offsets.length - 1)) =
      some (25, 2) ∧ ¬ (25 : Nat) < 20 ∧ (2 : Nat) ≠ 1 := by
  exact ⟨by decide, by decide, by decide⟩

/-- C6 (amended): `add` returns `false` exactly when the builder is
non-empty and `data.len + 2·offsets.len + key.len + value.len ≥ target_size`
— a check that counts one extra offsets slot but omits the new entry's 4
header bytes and the 2-byte trailer, so it equals
"post-append estimate ≥ target_size + 6". Consequently, after every
successful `add` the finalized-size estimate `data.len + 2·entries + 2` is
strictly below `target_size + 6` (not `target_size`), or the builder holds
exactly one entry. -/
theorem c6_add_size_budget (bs : Nat) :
    (∀ (b : BlockBuilder) (k v : List Nat),
        (b.add k v).1 = false ↔
          b.data ≠ [] ∧
            b.block_size ≤ b.data.length + 2 * b.offsets.length + (k.length + v.length)) ∧
    (∀ (es : List Entry) (b2 : BlockBuilder),
        (BlockBuilder.new bs).addAllOk es = some b2 → es ≠ [] →
        b2.data.length + 2 * es.length + 2 < bs + 6 ∨ es.length = 1) := by
  constructor
  · intro b k v
    rw [add_false_iff]
    constructor
    · rintro ⟨h1, h2⟩; exact ⟨h1, by omega⟩
    · rintro ⟨h1, h2⟩; exact ⟨h1, by omega⟩
  · intro es b2 h hne
    rcases List.eq_nil_or_concat es with rfl | ⟨es1, e, rfl⟩
    · exact absurd rfl hne
    · rw [List.concat_eq_append] at h ⊢
      rw [addAllOk_append] at h
      cases h1 : (BlockBuilder.new bs).addAllOk es1 with
      | none => rw [h1] at h; simp at h
      | some b1 =>
        rw [h1] at h
        replace h : b1.addAllOk [e] = some b2 := h
        obtain ⟨ho1, hd1, hbs1⟩ :=
          addAllOk_state es1 [] (BlockBuilder.new bs) b1 rfl rfl h1
        simp only [List.nil_append] at ho1 hd1
        have hbs1' : b1.block_size = bs := hbs1
        cases es1 with
        | nil => right; rfl
        | cons e0 es0 =>
          left
          simp only [BlockBuilder.addAllOk] at h
          cases hadd : b1.add e.key e.value with
          | mk ok bmid =>
            rw [hadd] at h
            cases ok with
            | false => simp at h
            | true =>
              simp only [BlockBuilder.addAllOk, Option.some_inj] at h
              subst h
              have hd1ne : b1.data ≠ [] := by
                rw [hd1]; exact entriesData_ne_nil (by simp)
              have hcheck :
                  b1.data.length + b1.offsets.length * 2 + (e.key.length + e.value.length) <
                    b1.block_size := by
                by_contra hge
                have : (b1.add e.key e.value).1 = false :=
                  (add_false_iff b1 e.key e.value).2 ⟨hd1ne, by omega⟩
                rw [hadd] at this
                simp at this
              obtain ⟨hdm, -, -⟩ := add_true_state b1 e.key e.value bmid hadd
              have hol : b1.offsets.length = (e0 :: es0).length + 1 := by
                rw [ho1, scanOffsets_length]
              have hdl : bmid.data.length =
                  b1.data.length + (4 + e.key.length + e.value.length) := by
                rw [hdm, List.length_append, encodeEntry_length]
              rw [hbs1'] at hcheck
              simp only [List.length_append, List.length_cons, List.length_nil] at hol ⊢
              omega

/-- C6 witness: the amended statement at `target_size = 30` with entries
`("a","1"), ("b","2")` (both adds succeed). -/
theorem c6_witness :
    ((∀ (b : BlockBuilder) (k v : List Nat),
        (b.add k v).1 = false ↔
          b.data ≠ [] ∧
            b.block_size ≤ b.data.length + 2 * b.offsets.length + (k.length + v.length)) ∧
      (∀ (es : List Entry) (b2 : BlockBuilder),
        (BlockBuilder.new 30).addAllOk es = some b2 → es ≠ [] →
        b2.data.length + 2 * es.length + 2 < 30 + 6 ∨ es.length = 1)) ∧
    ((BlockBuilder.new 30).addAllOk [⟨[97], [49]⟩, ⟨[98], [50]⟩]).isSome = true :=
  ⟨c6_add_size_budget 30, by decide⟩

theorem offsetsFrom_chain_lt (es : List Entry) :
    ∀ a : Nat, List.Chain' (· < ·) (offsetsFrom a es) := by
  induction es with
  | nil => intro a; simp [offsetsFrom]
  | cons e es ih =>
    intro a
    rw [show offsetsFrom a (e :: es) = a :: offsetsFrom (a + (encodeEntry e).length) es from rfl]
    rw [List.chain'_cons']
    refine ⟨?_, ih _⟩
    intro b hb
    cases es with
    | nil => simp [offsetsFrom] at hb
    | cons e2 es2 =>
      rw [show offsetsFrom (a + (encodeEntry e).length) (e2 :: es2) =
          (a + (encodeEntry e).length) ::
            offsetsFrom (a + (encodeEntry e).length + (encodeEntry e2).length) es2 from rfl] at hb
      simp only [List.head?_cons, Option.mem_def, Option.some_inj] at hb
      subst hb
      have := encodeEntry_length e
      omega

theorem scanOffsets_all_lt (es : List Entry) :
    ∀ a : Nat, a < 65536 → ∀ o ∈ scanOffsets a es, o < 65536 := by
  induction es with
  | nil => intro a ha o ho; simp [scanOffsets] at ho; omega
  | cons e es ih =>
    intro a ha o ho
    rw [show scanOffsets a (e :: es) =
        a :: scanOffsets ((a + (encodeEntry e).length % 65536) % 65536) es from rfl] at ho
    rcases List.mem_cons.mp ho with rfl | ho
    · exact ha
    · exact ih _ (Nat.mod_lt _ (by omega)) o ho

/-- C5 counterexample: the block built from `("a","1"), ("b","2")` has
`offsets = [0, 6, 2]` — the final slot is the entry count 2 pushed by
`build`, so the offsets vector is not strictly increasing (6 ≥ 2) and its
last element points into the middle of entry 0 rather than at an entry
header. -/
theorem c5_counterexample :
    (buildBlock 4096 [⟨[97], [49]⟩, ⟨[98], [50]⟩]).map Block.offsets = some [0, 6, 2] ∧
    ¬ List.Chain' (fun a b => a < b) [0, 6, 2] := by
  constructor
  · decide
  · intro h
    have h2 := (List.chain'_cons.mp h).2
    have h3 := (List.chain'_cons.mp h2).1
    omega

/-- C5 (amended): the block built after `n ≥ 1` successful adds (entries
fitting the u16 format) has `offsets = start-offsets ++ [n]`: the first `n`
slots are the entry start offsets — beginning at 0, strictly increasing,
and each decoding to its entry's key and value-length header — while the
final slot holds the entry count `n`, and the trailer `encode` writes is
`offsets.len() = n + 1`, one more than the entry count. -/
theorem c5_built_offsets (bs : Nat) (es : List Entry) (b2 : BlockBuilder)
    (hne : es ≠ []) (hdata : (entriesData es).length < 65536)
    (hb : ∀ e ∈ es, e.key.length < 65536 ∧ e.value.length < 65536)
    (h : (BlockBuilder.new bs).addAllOk es = some b2) :
    b2.build.offsets = offsetsFrom 0 es ++ [es.length % 65536] ∧
    b2.build.offsets.getD 0 0 = 0 ∧
    List.Chain' (· < ·) (offsetsFrom 0 es) ∧
    (∀ i, i < es.length →
      keyAt b2.build.data ((offsetsFrom 0 es).getD i 0) = (es.getD i default).key ∧
      valLenAt b2.build.data ((offsetsFrom 0 es).getD i 0) (es.getD i default).key.length =
        (es.getD i default).value.length) ∧
    b2.build.offsets.length = es.length + 1 := by
  obtain ⟨ho, hd, -⟩ := addAllOk_state es [] (BlockBuilder.new bs) b2 rfl rfl h
  simp only [List.nil_append] at ho hd
  have hscan : scanOffsets 0 es = offsetsFrom 0 es ++ [(entriesData es).length] := by
    have := scanOffsets_eq_offsetsFrom es 0 (by omega)
    simpa using this
  have hbuild : b2.build = ⟨b2.data, offsetsFrom 0 es ++ [es.length % 65536]⟩ := by
    unfold BlockBuilder.build
    rw [ho, hscan, List.dropLast_concat]
    simp only [offsetsFrom_length]
  rw [hbuild]
  refine ⟨rfl, ?_, offsetsFrom_chain_lt es 0, ?_, ?_⟩
  · cases es with
    | nil => exact absurd rfl hne
    | cons e es => rfl
  · intro i hi
    obtain ⟨-, h2, h3, -⟩ := entriesData_lookup es i hi hb
    rw [show (⟨b2.data, offsetsFrom 0 es ++ [es.length % 65536]⟩ : Block).data = b2.data from rfl,
      hd]
    exact ⟨h2, h3⟩
  · simp [offsetsFrom_length]

/-- C5 witness: the amended statement at the two-entry block. -/
theorem c5_witness :
    ([⟨[97], [49]⟩, ⟨[98], [50]⟩] : List Entry) ≠ [] ∧
    ((BlockBuilder.new 4096).addAllOk [⟨[97], [49]⟩, ⟨[98], [50]⟩]).isSome = true ∧
    (∀ b2, (BlockBuilder.new 4096).addAllOk [⟨[97], [49]⟩, ⟨[98], [50]⟩] = some b2 →
      b2.build.offsets = offsetsFrom 0 [⟨[97], [49]⟩, ⟨[98], [50]⟩] ++ [2 % 65536] ∧
      b2.build.offsets.getD 0 0 = 0) := by
  refine ⟨by decide, by decide, ?_⟩
  intro b2 h
  obtain ⟨h1, h2, -, -, -⟩ :=
    c5_built_offsets 4096 [⟨[97], [49]⟩, ⟨[98], [50]⟩] b2 (by decide) (by decide) (by decide) h
  exact ⟨h1, h2⟩

theorem flatten_u16be_length (l : List Nat) :
    ((l.map u16be).flatten).length = 2 * l.length := by
  induction l with
  | nil => rfl
  | cons x xs ih => simp [u16be, ih]; omega

theorem decode_encode (b : Block) (hL : b.offsets.length < 65536)
    (ho : ∀ o ∈ b.offsets, o < 65536) :
    Block.decode (Block.encode b) = some b := by
  have hflat := flatten_u16be_length b.offsets
  have henc : Block.encode b =
      (b.data ++ (b.offsets.map u16be).flatten) ++
        [b.offsets.length / 256 % 256, b.offsets.length % 256] := by
    unfold Block.encode u16be
    simp [List.append_assoc]
  have hlen : (Block.encode b).length = b.data.length + 2 * b.offsets.length + 2 := by
    rw [henc]
    simp [hflat]
    omega
  unfold Block.decode
  rw [if_neg (by omega)]
  have hg1 : (Block.encode b).getD ((Block.encode b).length - 2) 0 =
      b.offsets.length / 256 % 256 := by
    rw [henc, getD_at_len _ _ _ 0 (by simp [hflat]; omega)]
    rfl
  have hg2 : (Block.encode b).getD ((Block.encode b).length - 1) 0 =
      b.offsets.length % 256 := by
    rw [henc, getD_at_len _ _ _ 1 (by simp [hflat]; omega)]
    rfl
  rw [hg1, hg2]
  have hn : readU16 (b.offsets.length / 256 % 256) (b.offsets.length % 256) =
      b.offsets.length := by
    simp [readU16]; omega
  rw [hn, if_neg (by omega)]
  have hde : (Block.encode b).length - 2 - 2 * b.offsets.length = b.data.length := by
    omega
  rw [hde]
  dsimp only
  have htake : (Block.encode b).take b.data.length = b.data := by
    rw [henc, List.append_assoc, List.take_left' rfl]
  have hdrop : ((Block.encode b).drop b.data.length).take (2 * b.offsets.length) =
      (b.offsets.map u16be).flatten := by
    rw [henc, List.append_assoc, List.drop_left' rfl, List.take_left' hflat]
  rw [htake, hdrop, parsePairs_u16be_flatten]
  have : b.offsets.map (· % 65536) = b.offsets := by
    conv_rhs => rw [show b.offsets = b.offsets.map id from (List.map_id b.offsets).symm]
    exact List.map_congr_left (fun o hmem => Nat.mod_eq_of_lt (ho o hmem))
  rw [this]

/-- C4: for every block produced by `BlockBuilder::build` after at least one
successful `add` (with the offsets vector fitting the u16 trailer),
`Block::decode(Block::encode(B))` returns a block with the same `data` and
`offsets`. -/
theorem c4_decode_encode_roundtrip (bs : Nat) (es : List Entry) (b2 : BlockBuilder)
    (hne : es ≠ []) (hlen : es.length + 1 < 65536)
    (h : (BlockBuilder.new bs).addAllOk es = some b2) :
    Block.decode (Block.encode b2.build) = some b2.build := by
  obtain ⟨ho, hd, -⟩ := addAllOk_state es [] (BlockBuilder.new bs) b2 rfl rfl h
  simp only [List.nil_append] at ho hd
  have hall : ∀ o ∈ b2.offsets, o < 65536 := by
    rw [ho]; exact scanOffsets_all_lt es 0 (by omega)
  apply decode_encode
  · unfold BlockBuilder.build
    simp only [List.length_append, List.length_dropLast, List.length_cons, List.length_nil, ho,
      scanOffsets_length]
    omega
  · unfold BlockBuilder.build
    intro o hmem
    simp only at hmem
    rcases List.mem_append.mp hmem with hmem | hmem
    · exact hall o (List.dropLast_subset _ hmem)
    · simp at hmem
      subst hmem
      exact Nat.mod_lt _ (by omega)

/-- C4 witness: the round trip at the concrete two-entry block. -/
theorem c4_witness :
    ([⟨[97], [49]⟩, ⟨[98], [50]⟩] : List Entry) ≠ [] ∧
    (∀ b2, (BlockBuilder.new 4096).addAllOk [⟨[97], [49]⟩, ⟨[98], [50]⟩] = some b2 →
      Block.decode (Block.encode b2.build) = some b2.build) ∧
    ((BlockBuilder.new 4096).addAllOk [⟨[97], [49]⟩, ⟨[98], [50]⟩]).isSome = true := by
  refine ⟨by decide, ?_, by decide⟩
  intro b2 h
  exact c4_decode_encode_roundtrip 4096 _ b2 (by decide) (by decide) h

theorem openMetaInput_appended (p blm : List Nat) (hp : p.length < 4294967296) :
    openMetaInput (p ++ (blm ++ u32be p.length)) = some blm := by
  unfold openMetaInput
  have hlen : (p ++ (blm ++ u32be p.length)).length = p.length + blm.length + 4 := by
    simp [u32be]
    omega
  rw [if_neg (by omega)]
  have hread1 : FileObject.read (p ++ (blm ++ u32be p.length)) 0
      ((p ++ (blm ++ u32be p.length)).length - 4) = some (p ++ blm) := by
    unfold FileObject.read
    rw [if_pos (by omega)]
    congr 1
    rw [List.drop_zero, hlen]
    rw [show p.length + blm.length + 4 - 4 = (p ++ blm).length by simp,
      ← List.append_assoc, List.take_left]
  have hread2 : FileObject.read (p ++ (blm ++ u32be p.length))
      ((p ++ (blm ++ u32be p.length)).length - 4) 4 = some (u32be p.length) := by
    unfold FileObject.read
    rw [if_pos (by omega)]
    congr 1
    rw [hlen, show p.length + blm.length + 4 - 4 = (p ++ blm).length by simp,
      ← List.append_assoc, List.drop_left]
    exact List.take_of_length_le (by simp [u32be])
  rw [hread1, hread2]
  dsimp only
  rw [readU32_u32be _ hp, if_neg (by simp), List.drop_left]

theorem decodeBlockMeta_three (b0 b1 k2 : Nat) : decodeBlockMeta [b0, b1, k2] = none := by
  simp [decodeBlockMeta, decodeBlockMetaF]

theorem open_appended_none (id : Nat) (p blm : List Nat) (hp : p.length < 4294967296)
    (h2 : decodeBlockMeta blm = none) :
    SsTable.open id (p ++ (blm ++ u32be p.length)) = none := by
  unfold SsTable.open
  have hlen : (p ++ (blm ++ u32be p.length)).length = p.length + blm.length + 4 := by
    simp [u32be]
    omega
  rw [if_neg (by omega)]
  have hread1 : FileObject.read (p ++ (blm ++ u32be p.length)) 0
      ((p ++ (blm ++ u32be p.length)).length - 4) = some (p ++ blm) := by
    unfold FileObject.read
    rw [if_pos (by omega)]
    congr 1
    rw [List.drop_zero, hlen]
    rw [show p.length + blm.length + 4 - 4 = (p ++ blm).length by simp,
      ← List.append_assoc, List.take_left]
  have hread2 : FileObject.read (p ++ (blm ++ u32be p.length))
      ((p ++ (blm ++ u32be p.length)).length - 4) 4 = some (u32be p.length) := by
    unfold FileObject.read
    rw [if_pos (by omega)]
    congr 1
    rw [hlen, show p.length + blm.length + 4 - 4 = (p ++ blm).length by simp,
      ← List.append_assoc, List.drop_left]
    exact List.take_of_length_le (by simp [u32be])
  rw [hread1, hread2]
  dsimp only
  rw [readU32_u32be _ hp, if_neg (by simp), List.drop_left, h2]

/-- C1 (code bug): `SsTableBuilder::build` writes
`[block][meta@12][meta_offset=12][bloom][bloom_offset=26]`, but
`SsTable::open` reads only the final `u32` (the bloom offset) and decodes
the block-meta index from there — i.e. the byte region `open` hands to
`decode_block_meta` is exactly the encoded Bloom filter, never the meta
index written at offset 12: re-opening a built SST cannot yield the
entries. Concretely, for the SST built from `[("a","1")]` with any 3-byte
bloom encoding, `open` panics inside `decode_block_meta` (`get_u32` on 3
remaining bytes). -/
theorem c1_open_reads_bloom_region_as_meta :
    (∀ blm : List Nat, openMetaInput (sstFileOf blm) = some blm) ∧
    (∀ b0 b1 k2 : Nat, SsTable.open 0 (sstFileOf [b0, b1, k2]) = none) := by
  have hfile : ∀ blm : List Nat, sstFileOf blm = sstPre26 ++ (blm ++ u32be sstPre26.length) :=
    fun blm => rfl
  constructor
  · intro blm
    rw [hfile]
    exact openMetaInput_appended sstPre26 blm (by decide)
  · intro b0 b1 k2
    rw [hfile]
    exact open_appended_none 0 sstPre26 [b0, b1, k2] (by decide)
      (decodeBlockMeta_three b0 b1 k2)

theorem getD_mem {α : Type} [Inhabited α] (l : List α) (i : Nat) (h : i < l.length) :
    l.getD i default ∈ l := by
  induction l generalizing i with
  | nil => simp at h
  | cons x xs ih =>
    cases i with
    | zero => simp
    | succ i =>
      right
      exact ih i (by simpa using h)

theorem mem_exists_getD {α : Type} [Inhabited α] (l : List α) (x : α) (h : x ∈ l) :
    ∃ i, i < l.length ∧ l.getD i default = x := by
  induction l with
  | nil => simp at h
  | cons y ys ih =>
    rcases List.mem_cons.mp h with rfl | h
    · exact ⟨0, by simp, rfl⟩
    · obtain ⟨i, hi, hget⟩ := ih h
      exact ⟨i + 1, by simpa using hi, by simpa using hget⟩

theorem drop_getD_cons {α : Type} [Inhabited α] (l : List α) :
    ∀ i : Nat, i < l.length → l.drop i = l.getD i default :: l.drop (i + 1) := by
  induction l with
  | nil => intro i h; simp at h
  | cons x xs ih =>
    intro i h
    cases i with
    | zero => simp
    | succ i =>
      simp only [List.drop_succ_cons, List.getD_cons_succ]
      exact ih i (by simpa using h)

theorem firstIdxSat_none_iff {α : Type} (p : α → Bool) (l : List α) :
    firstIdxSat p l = none ↔ ∀ x ∈ l, p x = false := by
  induction l with
  | nil => simp [firstIdxSat]
  | cons x xs ih =>
    unfold firstIdxSat
    by_cases hp : p x
    · simp [hp]
    · rw [if_neg hp]
      simp only [Option.map_eq_none', ih]
      constructor
      · intro h y hy
        rcases List.mem_cons.mp hy with rfl | hy
        · exact Bool.eq_false_iff.mpr hp
        · exact h y hy
      · intro h y hy
        exact h y (by simp [hy])

theorem firstIdxSat_some {α : Type} [Inhabited α] (p : α → Bool) (l : List α) :
    ∀ j : Nat, firstIdxSat p l = some j →
      j < l.length ∧ p (l.getD j default) = true ∧
      ∀ m, m < j → p (l.getD m default) = false := by
  induction l with
  | nil => intro j h; simp [firstIdxSat] at h
  | cons x xs ih =>
    intro j h
    unfold firstIdxSat at h
    by_cases hp : p x
    · rw [if_pos hp, Option.some_inj] at h
      subst h
      exact ⟨by simp, by simpa using hp, by omega⟩
    · rw [if_neg hp] at h
      cases hj : firstIdxSat p xs with
      | none => rw [hj] at h; simp at h
      | some j0 =>
        rw [hj] at h
        simp only [Option.map_some', Option.some_inj] at h
        subst h
        obtain ⟨h1, h2, h3⟩ := ih j0 hj
        refine ⟨by simpa using h1, by simpa using h2, ?_⟩
        intro m hm
        cases m with
        | zero => simpa using Bool.eq_false_iff.mpr hp
        | succ m => simpa using h3 m (by omega)

theorem ascendingKeys_cons (e : Entry) (es : List Entry)
    (h : ascendingKeys (e :: es) = true) : ascendingKeys es = true := by
  cases es with
  | nil => rfl
  | cons e2 es2 =>
    unfold ascendingKeys at h
    exact (Bool.and_eq_true_iff.mp h).2

theorem ascendingKeys_getD_lt (es : List Entry) :
    ∀ i j : Nat, ascendingKeys es = true → i < j → j < es.length →
      bytesLt (es.getD i default).key (es.getD j default).key = true := by
  induction es with
  | nil => intro i j _ _ hj; simp at hj
  | cons e es ih =>
    intro i j hasc hij hj
    have hstep : ∀ es2 : List Entry, ascendingKeys es2 = true → 0 < es2.length - 1 →
        False ∨ True := fun _ _ _ => Or.inr trivial
    cases j with
    | zero => omega
    | succ j =>
      have hj2 : j < es.length := by simpa using hj
      cases i with
      | zero =>
        -- e.key < es[j].key
        cases es with
        | nil => simp at hj2
        | cons e2 es2 =>
          have h12 : bytesLt e.key e2.key = true := by
            unfold ascendingKeys at hasc
            exact (Bool.and_eq_true_iff.mp hasc).1
          cases j with
          | zero => simpa using h12
          | succ j =>
            have := ih 0 (j + 1) (ascendingKeys_cons e _ hasc) (by omega) hj2
            simp only [List.getD_cons_succ, List.getD_cons_zero] at this ⊢
            exact bytesLt_trans _ _ _ h12 this
      | succ i =>
        simp only [List.getD_cons_succ]
        exact ih i j (ascendingKeys_cons e es hasc) (by omega) hj2

theorem ascendingKeys_getD_le (es : List Entry) (i j : Nat)
    (hasc : ascendingKeys es = true) (hij : i ≤ j) (hj : j < es.length) :
    bytesLe (es.getD i default).key (es.getD j default).key = true := by
  rcases Nat.lt_or_ge i j with h | h
  · exact bytesLe_of_lt (ascendingKeys_getD_lt es i j hasc h hj)
  · have : i = j := by omega
    subst this
    exact bytesLe_refl _

theorem wfBlock_offsets_length {blk : Block} {es : List Entry} (h : WFBlock blk es) :
    blk.offsets.length = es.length + 1 := by
  rw [h.2.1]
  simp [offsetsFrom_length]

theorem seekLoop_spec (blk : Block) (es : List Entry) (target : List Nat)
    (hwf : WFBlock blk es) :
    ∀ (fuel i : Nat), fuel + i = es.length + 1 →
      seekLoopAux blk target fuel i =
        match firstIdxSat (fun e => bytesLe target e.key) (es.drop i) with
        | none => none
        | some j => some (i + j, (offsetsFrom 0 es).getD (i + j) 0) := by
  obtain ⟨hdata, hoffs, hne, hb, hdlen, hasc⟩ := hwf
  intro fuel
  induction fuel with
  | zero =>
    intro i hfi
    rw [show i = es.length + 1 by omega, List.drop_eq_nil_of_le (by omega)]
    rfl
  | succ fuel ih =>
    intro i hfi
    unfold seekLoopAux
    have hlen : blk.offsets.length = es.length + 1 := by
      rw [hoffs]; simp [offsetsFrom_length]
    by_cases hi : i = blk.offsets.length - 1
    · rw [if_pos hi]
      rw [show i = es.length by omega, List.drop_length]
      rfl
    · rw [if_neg hi]
      have hilt : i < es.length := by omega
      have hoff_i : blk.offsets.getD i 0 = (offsetsFrom 0 es).getD i 0 := by
        rw [hoffs]
        exact List.getD_append _ _ _ _ (by simp [offsetsFrom_length]; omega)
      have hkey : keyAt blk.data (blk.offsets.getD i 0) = (es.getD i default).key := by
        rw [hoff_i, hdata]
        exact (entriesData_lookup es i hilt (fun e he => ⟨(hb e he).2.1, (hb e he).2.2⟩)).2.1
      rw [drop_getD_cons es i hilt]
      unfold firstIdxSat
      by_cases htgt : bytesLe target (es.getD i default).key
      · rw [if_pos (by rw [hkey]; exact htgt), if_pos htgt]
        rw [hoff_i]
        simp
      · rw [if_neg (by rw [hkey]; exact htgt), if_neg htgt]
        rw [ih (i + 1) (by omega)]
        cases hfj : firstIdxSat (fun e => bytesLe target e.key) (es.drop (i + 1)) with
        | none => simp
        | some j =>
          simp only [Option.map_some', Option.some_inj]
          have : i + (j + 1) = i + 1 + j := by omega
          rw [this]

theorem blockSeek_spec (es : List Entry) (blk : Block) (it : BlockIterator)
    (target : List Nat) (hwf : WFBlock blk es) (hblk : it.block = blk) :
    (∃ e, e ∈ es ∧ bytesLe target e.key = true ∧
        (it.seekToKey target).key = e.key ∧
        (it.seekToKey target).value = e.value ∧
        (it.seekToKey target).isValid = true ∧
        (∀ e2 ∈ es, bytesLe target e2.key = true → bytesLe e.key e2.key = true)) ∨
    ((∀ e ∈ es, bytesLt e.key target = true) ∧ (it.seekToKey target).isValid = false) := by
  have hspec := seekLoop_spec blk es target hwf blk.offsets.length 0
    (by rw [wfBlock_offsets_length hwf])
  rw [List.drop_zero] at hspec
  simp only [Nat.zero_add] at hspec
  obtain ⟨hdata, hoffs, hne, hb, hdlen, hasc⟩ := hwf
  cases hfi : firstIdxSat (fun e => bytesLe target e.key) es with
  | none =>
    right
    rw [hfi] at hspec
    have hseek : it.seekToKey target = { it with key := [] } := by
      unfold BlockIterator.seekToKey
      rw [hblk, hspec]
    refine ⟨?_, by rw [hseek]; rfl⟩
    intro e he
    exact bytesLt_of_not_le ((firstIdxSat_none_iff _ es).mp hfi e he)
  | some j =>
    left
    rw [hfi] at hspec
    obtain ⟨hjlt, hpj, hmin⟩ := firstIdxSat_some _ es j hfi
    obtain ⟨hl1, hl2, hl3, hl4⟩ := entriesData_lookup es j hjlt
      (fun e he => ⟨(hb e he).2.1, (hb e he).2.2⟩)
    have hseek : it.seekToKey target =
        { it with
            key := keyAt blk.data ((offsetsFrom 0 es).getD j 0),
            value_range :=
              ((offsetsFrom 0 es).getD j 0 + 2 +
                  keyLenAt blk.data ((offsetsFrom 0 es).getD j 0) + 2,
                (offsetsFrom 0 es).getD j 0 + 2 +
                    keyLenAt blk.data ((offsetsFrom 0 es).getD j 0) + 2 +
                  valLenAt blk.data ((offsetsFrom 0 es).getD j 0)
                    (keyLenAt blk.data ((offsetsFrom 0 es).getD j 0))),
            idx := j } := by
      unfold BlockIterator.seekToKey
      rw [hblk, hspec]
    have hkey : keyAt blk.data ((offsetsFrom 0 es).getD j 0) = (es.getD j default).key := by
      rw [hdata]; exact hl2
    have hklen : keyLenAt blk.data ((offsetsFrom 0 es).getD j 0) =
        (es.getD j default).key.length := by
      rw [hdata]; exact hl1
    have hvlen : valLenAt blk.data ((offsetsFrom 0 es).getD j 0)
        (keyLenAt blk.data ((offsetsFrom 0 es).getD j 0)) =
        (es.getD j default).value.length := by
      rw [hklen, hdata]; exact hl3
    refine ⟨es.getD j default, getD_mem es j hjlt, by simpa using hpj, ?_, ?_, ?_, ?_⟩
    · rw [hseek]
      exact hkey
    · rw [hseek]
      unfold BlockIterator.value
      dsimp only
      rw [hblk, hvlen, hklen]
      rw [show (offsetsFrom 0 es).getD j 0 + 2 + (es.getD j default).key.length + 2 +
            (es.getD j default).value.length -
            ((offsetsFrom 0 es).getD j 0 + 2 + (es.getD j default).key.length + 2) =
          (es.getD j default).value.length by omega]
      rw [hdata]
      exact hl4
    · rw [hseek]
      show (!(keyAt blk.data ((offsetsFrom 0 es).getD j 0)).isEmpty) = true
      rw [hkey]
      have := (hb _ (getD_mem es j hjlt)).1
      simpa [List.isEmpty_iff] using this
    · intro e2 he2 htgt2
      obtain ⟨m, hm, rfl⟩ := mem_exists_getD es e2 he2
      rcases Nat.lt_or_ge m j with hmj | hmj
      · have := hmin m hmj
        simp only [this] at htgt2
        cases htgt2
      · exact ascendingKeys_getD_le es j m hasc hmj hm

theorem getLastD_default_irrel {α : Type} (l : List α) (h : l ≠ []) (d d' : α) :
    l.getLastD d = l.getLastD d' := by
  induction l generalizing d d' with
  | nil => exact absurd rfl h
  | cons x xs ih =>
    cases xs with
    | nil => rfl
    | cons y ys =>
      show (y :: ys).getLastD x = (y :: ys).getLastD x
      rfl

theorem getLastD_eq_getD {α : Type} [Inhabited α] (l : List α) (h : l ≠ []) :
    l.getLastD default = l.getD (l.length - 1) default := by
  induction l with
  | nil => exact absurd rfl h
  | cons x xs ih =>
    cases hxs : xs with
    | nil => rfl
    | cons y ys =>
      subst hxs
      show (y :: ys).getLastD x = _
      rw [getLastD_default_irrel (y :: ys) (by simp) x default, ih (by simp)]
      simp only [List.length_cons]
      rw [show ys.length + 1 + 1 - 1 = (ys.length + 1 - 1) + 1 by omega, List.getD_cons_succ]

theorem mem_getLastD {α : Type} [Inhabited α] (l : List α) (h : l ≠ []) :
    l.getLastD default ∈ l := by
  rw [getLastD_eq_getD l h]
  apply getD_mem
  cases l with
  | nil => exact absurd rfl h
  | cons x xs => simp

theorem sorted_first_le (es : List Entry) (hasc : ascendingKeys es = true) :
    ∀ e ∈ es, bytesLe (firstKeyOf es) e.key = true := by
  intro e he
  obtain ⟨m, hm, rfl⟩ := mem_exists_getD es e he
  cases es with
  | nil => simp at hm
  | cons e0 es0 =>
    show bytesLe ((e0 :: es0).getD 0 default).key _ = true
    exact ascendingKeys_getD_le _ 0 m hasc (by omega) hm

theorem sorted_le_last (es : List Entry) (hasc : ascendingKeys es = true) (hne : es ≠ []) :
    ∀ e ∈ es, bytesLe e.key (lastKeyOf es) = true := by
  intro e he
  obtain ⟨m, hm, rfl⟩ := mem_exists_getD es e he
  unfold lastKeyOf
  rw [getLastD_eq_getD es hne]
  exact ascendingKeys_getD_le es m (es.length - 1) hasc (by omega) (by omega)

theorem lastKeyOf_mem_key (es : List Entry) (hne : es ≠ []) :
    ∃ e ∈ es, e.key = lastKeyOf es := by
  exact ⟨es.getLastD default, mem_getLastD es hne, rfl⟩

theorem ascendingBlocks_tail (es1 : List (List Entry)) (es : List Entry)
    (h : ascendingBlocks (es :: es1) = true) : ascendingBlocks es1 = true := by
  cases es1 with
  | nil => rfl
  | cons es2 rest =>
    unfold ascendingBlocks at h
    exact (Bool.and_eq_true_iff.mp h).2

theorem ascendingBlocks_step (ess : List (List Entry)) :
    ∀ i : Nat, ascendingBlocks ess = true → i + 1 < ess.length →
      bytesLt (lastKeyOf (ess.getD i [])) (firstKeyOf (ess.getD (i + 1) [])) = true := by
  induction ess with
  | nil => intro i _ h; simp at h
  | cons es1 rest ih =>
    intro i hab hi
    cases rest with
    | nil => simp at hi
    | cons es2 rest2 =>
      have h1 : bytesLt (lastKeyOf es1) (firstKeyOf es2) = true := by
        unfold ascendingBlocks at hab
        exact (Bool.and_eq_true_iff.mp hab).1
      cases i with
      | zero => simpa using h1
      | succ i =>
        simp only [List.getD_cons_succ]
        exact ih i (ascendingBlocks_tail _ _ hab) (by simpa using hi)

theorem blocks_lt (ess : List (List Entry)) (hab : ascendingBlocks ess = true)
    (hsorted : ∀ i, i < ess.length → ascendingKeys (ess.getD i []) = true)
    (hnonempty : ∀ i, i < ess.length → ess.getD i [] ≠ []) :
    ∀ m, m < ess.length → ∀ i, i < m → ∀ e2 ∈ ess.getD m [],
      bytesLt (lastKeyOf (ess.getD i [])) e2.key = true := by
  intro m
  induction m with
  | zero => intro _ i hi; omega
  | succ m ih =>
    intro hm i hi e2 he2
    have hstep : bytesLt (lastKeyOf (ess.getD m [])) (firstKeyOf (ess.getD (m + 1) [])) = true :=
      ascendingBlocks_step ess m hab hm
    have hfirst : bytesLe (firstKeyOf (ess.getD (m + 1) [])) e2.key = true := by
      have hs : ascendingKeys (ess.getD (m + 1) []) = true := hsorted (m + 1) hm
      exact sorted_first_le _ hs e2 he2
    have hlast2 : bytesLt (lastKeyOf (ess.getD m [])) e2.key = true :=
      bytesLt_of_lt_of_le hstep hfirst
    rcases Nat.lt_or_ge i m with him | him
    · have hne_m : ess.getD m [] ≠ [] := hnonempty m (by omega)
      have h1 : bytesLt (lastKeyOf (ess.getD i [])) (lastKeyOf (ess.getD m [])) = true := by
        have := ih (by omega) i him ((ess.getD m []).getLastD default) (mem_getLastD _ hne_m)
        exact this
      exact bytesLt_trans _ _ _ h1 hlast2
    · have : i = m := by omega
      subst this
      exact hlast2

theorem wfSst_block (t : SsTable) (ess : List (List Entry)) (hwf : WFSst t ess) (i : Nat)
    (hi : i < ess.length) :
    ∃ b, t.readBlock i = some b ∧ WFBlock b (ess.getD i []) := by
  have h := hwf.2.2.1 i hi
  unfold readBlockWFb at h
  cases hr : t.readBlock i with
  | none => rw [hr] at h; simp at h
  | some b =>
    rw [hr] at h
    exact ⟨b, rfl, of_decide_eq_true h⟩

theorem sstSeek_spec (ess : List (List Entry)) (t : SsTable) (it : SsTableIterator)
    (target : List Nat) (hwf : WFSst t ess) (htab : it.table = t) :
    ∃ it2, it.seekToKey target = some it2 ∧
      ((∃ e, e ∈ ess.flatten ∧ bytesLe target e.key = true ∧
          it2.key = e.key ∧ it2.value = e.value ∧ it2.isValid = true ∧
          (∀ e2 ∈ ess.flatten, bytesLe target e2.key = true →
            bytesLe e.key e2.key = true)) ∨
        ((∀ e ∈ ess.flatten, bytesLt e.key target = true) ∧ it2.isValid = false)) := by
  have hlen := hwf.1
  have hne := hwf.2.1
  have hmeta := hwf.2.2.2.1
  have hab := hwf.2.2.2.2
  have hsorted : ∀ i, i < ess.length → ascendingKeys (ess.getD i []) = true := by
    intro i hi
    obtain ⟨b, -, hwb⟩ := wfSst_block t ess hwf i hi
    exact hwb.2.2.2.2.2
  have hnonempty : ∀ i, i < ess.length → ess.getD i [] ≠ [] := by
    intro i hi
    obtain ⟨b, -, hwb⟩ := wfSst_block t ess hwf i hi
    exact hwb.2.2.1
  have hflat_mem : ∀ e2, e2 ∈ ess.flatten → ∃ m, m < ess.length ∧ e2 ∈ ess.getD m [] := by
    intro e2 h2
    obtain ⟨esm, hesm, hmem⟩ := List.mem_flatten.mp h2
    obtain ⟨m, hm, hg⟩ := mem_exists_getD ess esm hesm
    exact ⟨m, hm, by rw [show (ess.getD m [] : List Entry) = esm from hg]; exact hmem⟩
  have hmem_flat : ∀ m, m < ess.length → ∀ e, e ∈ ess.getD m [] → e ∈ ess.flatten := by
    intro m hm e hme
    exact List.mem_flatten.mpr ⟨ess.getD m [], getD_mem ess m hm, hme⟩
  unfold SsTableIterator.seekToKey
  rw [htab]
  cases hfind : firstIdxSat (fun m => bytesLe target m.last_key) t.block_meta with
  | some i =>
    obtain ⟨hilt_m, hPi, hPmin⟩ := firstIdxSat_some _ _ i hfind
    have hilt : i < ess.length := by omega
    have hidx : t.findBlockIdx target = i := by
      unfold SsTable.findBlockIdx
      rw [hfind]
    obtain ⟨b, hrb, hwb⟩ := wfSst_block t ess hwf i hilt
    have htle : bytesLe target (lastKeyOf (ess.getD i [])) = true := by
      rw [← (hmeta i hilt).2]
      simpa using hPi
    have hbs := blockSeek_spec (ess.getD i []) b (BlockIterator.createAndSeekToFirst b)
      target hwb rfl
    rcases hbs with ⟨e, hmem, htge, hkey, hval, hvalid, hminb⟩ | ⟨hallt, hinv⟩
    · have hinner : SsTableIterator.seekToKeyInner t target =
          some (i, BlockIterator.createAndSeekToKey b target) := by
        unfold SsTableIterator.seekToKeyInner
        rw [hidx]
        dsimp only
        rw [show t.readBlockCached i = some b from hrb]
        dsimp only
        rw [show (BlockIterator.createAndSeekToKey b target).isValid = true from hvalid]
        simp
      refine ⟨{ table := t,
                blk_iter := BlockIterator.createAndSeekToKey b target,
                blk_idx := i },
        by rw [hinner], ?_⟩
      left
      refine ⟨e, hmem_flat i hilt e hmem, htge, hkey, hval, hvalid, ?_⟩
      intro e2 he2 ht2
      obtain ⟨m, hm, hm2⟩ := hflat_mem e2 he2
      rcases Nat.lt_trichotomy m i with hmi | hmi | hmi
      · exfalso
        have hPm : bytesLe target ((t.block_meta.getD m default).last_key) = false := by
          simpa using hPmin m hmi
        rw [(hmeta m hm).2] at hPm
        have hlt_m : bytesLt (lastKeyOf (ess.getD m [])) target = true := bytesLt_of_not_le hPm
        have hle2 : bytesLe e2.key (lastKeyOf (ess.getD m [])) = true :=
          sorted_le_last _ (hsorted m hm) (hnonempty m hm) e2 hm2
        have : bytesLt e2.key target = true := bytesLt_of_le_of_lt hle2 hlt_m
        unfold bytesLe at ht2
        rw [this] at ht2
        simp at ht2
      · subst hmi
        exact hminb e2 hm2 ht2
      · have h1 : bytesLe e.key (lastKeyOf (ess.getD i [])) = true :=
          sorted_le_last _ (hsorted i hilt) (hnonempty i hilt) e hmem
        have h2 : bytesLt (lastKeyOf (ess.getD i [])) e2.key = true :=
          blocks_lt ess hab hsorted hnonempty m hm i hmi e2 hm2
        exact bytesLe_of_lt (bytesLt_of_le_of_lt h1 h2)
    · exfalso
      obtain ⟨el, hel, helk⟩ := lastKeyOf_mem_key (ess.getD i []) (hnonempty i hilt)
      have h1 := hallt el hel
      rw [helk] at h1
      unfold bytesLe at htle
      rw [h1] at htle
      simp at htle
  | none =>
    have hlen_pos : 0 < ess.length := by
      cases ess with
      | nil => exact absurd rfl hne
      | cons a b => simp
    have hidx : t.findBlockIdx target = t.block_meta.length - 1 := by
      unfold SsTable.findBlockIdx
      rw [hfind]
    have hilt : t.block_meta.length - 1 < ess.length := by omega
    obtain ⟨b, hrb, hwb⟩ := wfSst_block t ess hwf (t.block_meta.length - 1) hilt
    have hall_lt : ∀ m, m < ess.length → ∀ e2 ∈ ess.getD m [],
        bytesLt e2.key target = true := by
      intro m hm e2 hm2
      have hPm : bytesLe target ((t.block_meta.getD m default).last_key) = false := by
        have := (firstIdxSat_none_iff (fun mm => bytesLe target mm.last_key)
          t.block_meta).mp hfind (t.block_meta.getD m default) (getD_mem _ m (by omega))
        simpa using this
      rw [(hmeta m hm).2] at hPm
      exact bytesLt_of_le_of_lt
        (sorted_le_last _ (hsorted m hm) (hnonempty m hm) e2 hm2)
        (bytesLt_of_not_le hPm)
    have hbs := blockSeek_spec (ess.getD (t.block_meta.length - 1) []) b
      (BlockIterator.createAndSeekToFirst b) target hwb rfl
    rcases hbs with ⟨e, hmem, htge, -, -, -, -⟩ | ⟨-, hinv⟩
    · exfalso
      have := hall_lt (t.block_meta.length - 1) hilt e hmem
      unfold bytesLe at htge
      rw [this] at htge
      simp at htge
    · have hinner : SsTableIterator.seekToKeyInner t target =
          some (t.block_meta.length - 1 + 1, BlockIterator.createAndSeekToKey b target) := by
        unfold SsTableIterator.seekToKeyInner
        rw [hidx]
        dsimp only
        rw [show t.readBlockCached (t.block_meta.length - 1) = some b from hrb]
        dsimp only
        rw [show (BlockIterator.createAndSeekToKey b target).isValid = false from hinv]
        rw [if_neg (by simp)]
        rw [if_neg (by omega)]
      refine ⟨{ table := t,
                blk_iter := BlockIterator.createAndSeekToKey b target,
                blk_idx := t.block_meta.length - 1 + 1 },
        by rw [hinner], ?_⟩
      right
      refine ⟨?_, hinv⟩
      intro e2 he2
      obtain ⟨m, hm, hm2⟩ := hflat_mem e2 he2
      exact hall_lt m hm e2 hm2

/-- C7: on every well-formed block and every well-formed SST,
`seek_to_key(k)` leaves the iterator with `key()` the smallest stored key
`≥ k` and `value()` that entry's value; when no stored key is `≥ k` the
iterator becomes invalid. -/
theorem c7_seek_to_key_smallest_ge :
    (∀ (es : List Entry) (blk : Block) (it : BlockIterator) (target : List Nat),
        WFBlock blk es → it.block = blk →
        ((∃ e, e ∈ es ∧ bytesLe target e.key = true ∧
            (it.seekToKey target).key = e.key ∧
            (it.seekToKey target).value = e.value ∧
            (it.seekToKey target).isValid = true ∧
            (∀ e2 ∈ es, bytesLe target e2.key = true → bytesLe e.key e2.key = true)) ∨
          ((∀ e ∈ es, bytesLt e.key target = true) ∧
            (it.seekToKey target).isValid = false))) ∧
    (∀ (ess : List (List Entry)) (t : SsTable) (it : SsTableIterator) (target : List Nat),
        WFSst t ess → it.table = t →
        ∃ it2, it.seekToKey target = some it2 ∧
          ((∃ e, e ∈ ess.flatten ∧ bytesLe target e.key = true ∧
              it2.key = e.key ∧ it2.value = e.value ∧ it2.isValid = true ∧
              (∀ e2 ∈ ess.flatten, bytesLe target e2.key = true →
                bytesLe e.key e2.key = true)) ∨
            ((∀ e ∈ ess.flatten, bytesLt e.key target = true) ∧ it2.isValid = false))) :=
  ⟨fun es blk it target hwf hblk => blockSeek_spec es blk it target hwf hblk,
   fun ess t it target hwf htab => sstSeek_spec ess t it target hwf htab⟩

/-- C7 witness: both halves at concrete well-formed inputs, target `"b"`. -/
theorem c7_witness :
    WFBlock wBlk wEs ∧ WFSst wSst wEss ∧
    ((∃ e, e ∈ wEs ∧ bytesLe [98] e.key = true ∧
        ((BlockIterator.createAndSeekToFirst wBlk).seekToKey [98]).key = e.key ∧
        ((BlockIterator.createAndSeekToFirst wBlk).seekToKey [98]).value = e.value ∧
        ((BlockIterator.createAndSeekToFirst wBlk).seekToKey [98]).isValid = true ∧
        (∀ e2 ∈ wEs, bytesLe [98] e2.key = true → bytesLe e.key e2.key = true)) ∨
      ((∀ e ∈ wEs, bytesLt e.key [98] = true) ∧
        ((BlockIterator.createAndSeekToFirst wBlk).seekToKey [98]).isValid = false)) ∧
    (∃ it2, wSstIt.seekToKey [98] = some it2 ∧
      ((∃ e, e ∈ wEss.flatten ∧ bytesLe [98] e.key = true ∧
          it2.key = e.key ∧ it2.value = e.value ∧ it2.isValid = true ∧
          (∀ e2 ∈ wEss.flatten, bytesLe [98] e2.key = true →
            bytesLe e.key e2.key = true)) ∨
        ((∀ e ∈ wEss.flatten, bytesLt e.key [98] = true) ∧ it2.isValid = false))) :=
  ⟨by decide, by decide,
    c7_seek_to_key_smallest_ge.1 wEs wBlk (BlockIterator.createAndSeekToFirst wBlk) [98]
      (by decide) rfl,
    c7_seek_to_key_smallest_ge.2 wEss wSst wSstIt [98] (by decide) rfl⟩

theorem popsBefore_key_le {a b : Cursor} (h : popsBefore a b = true) :
    bytesLe a.key b.key = true := by
  unfold popsBefore at h
  rcases Bool.or_eq_true_iff.mp h with h | h
  · exact bytesLe_of_lt h
  · obtain ⟨h1, -⟩ := Bool.and_eq_true_iff.mp h
    exact (bytesLe_iff _ _).2 (Or.inr (of_decide_eq_true h1))

theorem popsBefore_asymm {a b : Cursor} (h : popsBefore a b = true) :
    popsBefore b a = false := by
  unfold popsBefore at h ⊢
  rcases Bool.or_eq_true_iff.mp h with h | h
  · have h1 := bytesLt_asymm _ _ h
    have h2 : b.key ≠ a.key := by
      intro he
      rw [← he, bytesLt_irrefl] at h
      cases h
    simp [h1, h2]
  · obtain ⟨h1, h2⟩ := Bool.and_eq_true_iff.mp h
    have hk : a.key = b.key := of_decide_eq_true h1
    have hi : a.idx < b.idx := of_decide_eq_true h2
    rw [← hk, bytesLt_irrefl]
    simp
    omega

theorem popsBefore_trans {a b c : Cursor} (h1 : popsBefore a b = true)
    (h2 : popsBefore b c = true) : popsBefore a c = true := by
  unfold popsBefore at h1 h2 ⊢
  rcases Bool.or_eq_true_iff.mp h1 with h1 | h1 <;>
    rcases Bool.or_eq_true_iff.mp h2 with h2 | h2
  · simp [bytesLt_trans _ _ _ h1 h2]
  · obtain ⟨hk, -⟩ := Bool.and_eq_true_iff.mp h2
    rw [← of_decide_eq_true hk]
    simp [h1]
  · obtain ⟨hk, -⟩ := Bool.and_eq_true_iff.mp h1
    rw [of_decide_eq_true hk]
    simp [h2]
  · obtain ⟨hk1, hi1⟩ := Bool.and_eq_true_iff.mp h1
    obtain ⟨hk2, hi2⟩ := Bool.and_eq_true_iff.mp h2
    rw [of_decide_eq_true hk1, of_decide_eq_true hk2]
    simp [bytesLt_irrefl]
    have := of_decide_eq_true hi1
    have := of_decide_eq_true hi2
    omega

theorem popsBefore_total {a b : Cursor} (h : a.idx ≠ b.idx) :
    popsBefore a b = true ∨ popsBefore b a = true := by
  unfold popsBefore
  rcases bytesLt_trichotomy a.key b.key with hk | hk | hk
  · left
    simp [hk]
  · rcases Nat.lt_or_ge a.idx b.idx with hi | hi
    · left
      simp [hk, hi]
    · right
      have hk2 : b.key = a.key := hk.symm
      have hi2 : b.idx < a.idx := by omega
      simp [hk2, hi2]
  · right
    simp [hk]

theorem mem_heapPush (c d : Cursor) (l : List Cursor) :
    d ∈ heapPush c l ↔ d = c ∨ d ∈ l := by
  induction l with
  | nil => simp [heapPush]
  | cons h t ih =>
    unfold heapPush
    by_cases hp : popsBefore c h
    · simp [hp]
    · simp [hp, ih]
      tauto

theorem heapPush_perm (c : Cursor) (l : List Cursor) :
    List.Perm (heapPush c l) (c :: l) := by
  induction l with
  | nil => simp [heapPush]
  | cons h t ih =>
    unfold heapPush
    by_cases hp : popsBefore c h
    · simp [hp]
    · rw [if_neg hp]
      exact List.Perm.trans (List.Perm.cons h ih) (List.Perm.swap c h t)

theorem heapPush_pairwise (c : Cursor) (l : List Cursor)
    (hs : List.Pairwise (fun a b => popsBefore a b = true) l)
    (htot : ∀ d ∈ l, popsBefore c d = true ∨ popsBefore d c = true) :
    List.Pairwise (fun a b => popsBefore a b = true) (heapPush c l) := by
  induction l with
  | nil => simp [heapPush]
  | cons h t ih =>
    unfold heapPush
    by_cases hp : popsBefore c h
    · rw [if_pos hp]
      refine List.Pairwise.cons ?_ hs
      intro d hd
      rcases List.mem_cons.mp hd with rfl | hd
      · exact hp
      · exact popsBefore_trans hp (List.rel_of_pairwise_cons hs hd)
    · rw [if_neg hp]
      have hhc : popsBefore h c = true := by
        rcases htot h (by simp) with h1 | h1
        · exact absurd h1 hp
        · exact h1
      refine List.Pairwise.cons ?_ ?_
      · intro d hd
        rcases (mem_heapPush c d t).mp hd with rfl | hd
        · exact hhc
        · exact List.rel_of_pairwise_cons hs hd
      · exact ih (List.Pairwise.of_cons hs) (fun d hd => htot d (by simp [hd]))

theorem cursor_next_key_gt (c : Cursor) (hasc : ascendingKeys c.entries = true)
    (hv2 : c.next.valid = true) : bytesLt c.key c.next.key = true := by
  cases hc : c.entries with
  | nil =>
    unfold Cursor.next Cursor.valid at hv2
    rw [hc] at hv2
    simp at hv2
  | cons e rest =>
    cases hr : rest with
    | nil =>
      unfold Cursor.next Cursor.valid at hv2
      rw [hc, hr] at hv2
      simp at hv2
    | cons e2 rest2 =>
      rw [hc, hr] at hasc
      unfold ascendingKeys at hasc
      have h12 := (Bool.and_eq_true_iff.mp hasc).1
      unfold Cursor.key Cursor.next
      rw [hc, hr]
      simpa using h12

theorem advIfKey_self {k : List Nat} {c : Cursor} (h : ¬(c.valid = true ∧ c.key = k)) :
    advIfKey k c = c := by
  unfold advIfKey
  rw [if_neg]
  intro hand
  obtain ⟨h1, h2⟩ := Bool.and_eq_true_iff.mp hand
  exact h ⟨h1, of_decide_eq_true h2⟩

theorem advIfKey_hit {k : List Nat} {c : Cursor} (hv : c.valid = true) (hk : c.key = k) :
    advIfKey k c = c.next := by
  unfold advIfKey
  rw [if_pos]
  simp [hv, hk]

theorem advIfKey_idx (k : List Nat) (c : Cursor) : (advIfKey k c).idx = c.idx := by
  unfold advIfKey
  split
  · rfl
  · rfl

theorem heapSize_perm {l₁ l₂ : List Cursor} (h : List.Perm l₁ l₂) :
    heapSize l₁ = heapSize l₂ := by
  unfold heapSize
  exact List.Perm.sum_eq (List.Perm.map _ h)

theorem cursor_valid_entries_pos {c : Cursor} (h : c.valid = true) :
    0 < c.entries.length := by
  unfold Cursor.valid at h
  cases hc : c.entries with
  | nil => rw [hc] at h; simp at h
  | cons e rest => simp

theorem ascendingKeys_tail_list (es : List Entry) (h : ascendingKeys es = true) :
    ascendingKeys es.tail = true := by
  cases es with
  | nil => rfl
  | cons e rest => exact ascendingKeys_cons e rest h

theorem drainEq_spec (k : List Nat) :
    ∀ (fuel : Nat) (h : List Cursor),
      (∀ c ∈ h, c.valid = true) →
      List.Pairwise (fun a b => popsBefore a b = true) h →
      (∀ c ∈ h, ascendingKeys c.entries = true) →
      (∀ c ∈ h, bytesLe k c.key = true) →
      (h.map Cursor.idx).Nodup →
      heapSize h < fuel →
      List.Perm (drainEqF k fuel h) ((h.map (advIfKey k)).filter (fun c => c.valid)) ∧
      List.Pairwise (fun a b => popsBefore a b = true) (drainEqF k fuel h) ∧
      (∀ c ∈ drainEqF k fuel h, bytesLe k c.key = true) := by
  intro fuel
  induction fuel with
  | zero =>
    intro h _ _ _ _ _ hf
    omega
  | succ fuel ih =>
    intro h hval hsort hasc hklow hnodup hf
    cases h with
    | nil =>
      refine ⟨by simp [drainEqF], by simp [drainEqF], by simp [drainEqF]⟩
    | cons c t =>
      unfold drainEqF
      dsimp only
      have hcval : c.valid = true := hval c (by simp)
      by_cases hck : c.key = k
      · rw [if_pos hck]
        have hadv_c : advIfKey k c = c.next := advIfKey_hit hcval hck
        by_cases hc2 : c.next.valid = true
        · rw [if_pos hc2]
          -- push c.next and recurse
          have hperm_push := heapPush_perm c.next t
          have hgt : bytesLt k c.next.key = true := by
            rw [← hck]
            exact cursor_next_key_gt c (hasc c (by simp)) hc2
          have hne_k : c.next.key ≠ k := by
            intro he
            rw [he] at hgt
            have := hklow c (by simp)
            rw [hck] at this
            rw [show (k : List Nat) = k from rfl] at hgt
            exact absurd hgt (by simp [bytesLt_irrefl])
          have hval2 : ∀ d ∈ heapPush c.next t, d.valid = true := by
            intro d hd
            rcases (mem_heapPush _ _ _).mp hd with rfl | hd
            · exact hc2
            · exact hval d (by simp [hd])
          have hidx_next : c.next.idx = c.idx := rfl
          have hnodup_push : ((heapPush c.next t).map Cursor.idx).Nodup := by
            have hp2 : List.Perm ((heapPush c.next t).map Cursor.idx)
                ((c.next :: t).map Cursor.idx) := List.Perm.map _ hperm_push
            rw [List.Perm.nodup_iff hp2]
            simp only [List.map_cons, hidx_next]
            simpa using hnodup
          have htot : ∀ d ∈ t, popsBefore c.next d = true ∨ popsBefore d c.next = true := by
            intro d hd
            apply popsBefore_total
            rw [hidx_next]
            intro he
            simp only [List.map_cons, List.nodup_cons] at hnodup
            exact hnodup.1 (by rw [he]; exact List.mem_map_of_mem Cursor.idx hd)
          have hsort_push : List.Pairwise (fun a b => popsBefore a b = true)
              (heapPush c.next t) :=
            heapPush_pairwise c.next t (List.Pairwise.of_cons hsort) htot
          have hasc_push : ∀ d ∈ heapPush c.next t, ascendingKeys d.entries = true := by
            intro d hd
            rcases (mem_heapPush _ _ _).mp hd with rfl | hd
            · exact ascendingKeys_tail_list c.entries (hasc c (by simp))
            · exact hasc d (by simp [hd])
          have hklow_push : ∀ d ∈ heapPush c.next t, bytesLe k d.key = true := by
            intro d hd
            rcases (mem_heapPush _ _ _).mp hd with rfl | hd
            · exact bytesLe_of_lt hgt
            · exact hklow d (by simp [hd])
          have hsize : heapSize (heapPush c.next t) < fuel := by
            rw [heapSize_perm hperm_push]
            have hpos := cursor_valid_entries_pos hcval
            unfold heapSize at hf ⊢
            simp only [List.map_cons, List.sum_cons] at hf ⊢
            have : c.next.entries.length = c.entries.length - 1 := by
              unfold Cursor.next
              simp [List.length_tail]
            omega
          obtain ⟨ihp, ihs, ihk⟩ := ih (heapPush c.next t) hval2 hsort_push hasc_push
            hklow_push hnodup_push hsize
          refine ⟨?_, ihs, ihk⟩
          -- permutation algebra
          have h1 : List.Perm ((heapPush c.next t).map (advIfKey k))
              ((c.next :: t).map (advIfKey k)) := List.Perm.map _ hperm_push
          have h2 : List.Perm (((heapPush c.next t).map (advIfKey k)).filter (fun c => c.valid))
              (((c.next :: t).map (advIfKey k)).filter (fun c => c.valid)) :=
            List.Perm.filter _ h1
          refine List.Perm.trans ihp (List.Perm.trans h2 ?_)
          simp only [List.map_cons, List.filter_cons]
          rw [advIfKey_self (fun hand => hne_k hand.2), hadv_c]
        · rw [if_neg hc2]
          have hval2 : ∀ d ∈ t, d.valid = true := fun d hd => hval d (by simp [hd])
          have hnodup_t : (t.map Cursor.idx).Nodup := by
            simp only [List.map_cons, List.nodup_cons] at hnodup
            exact hnodup.2
          have hsize : heapSize t < fuel := by
            have hpos := cursor_valid_entries_pos hcval
            unfold heapSize at hf ⊢
            simp only [List.map_cons, List.sum_cons] at hf
            omega
          obtain ⟨ihp, ihs, ihk⟩ := ih t hval2 (List.Pairwise.of_cons hsort)
            (fun d hd => hasc d (by simp [hd])) (fun d hd => hklow d (by simp [hd]))
            hnodup_t hsize
          refine ⟨?_, ihs, ihk⟩
          refine List.Perm.trans ihp ?_
          simp only [List.map_cons, List.filter_cons]
          rw [advIfKey_hit hcval hck]
          rw [if_neg (by simpa using hc2)]
      · rw [if_neg hck]
        -- head key ≠ k: no element of c :: t holds k
        have hckgt : bytesLt k c.key = true := by
          have := hklow c (by simp)
          rcases (bytesLe_iff _ _).1 this with h1 | h1
          · exact h1
          · exact absurd h1.symm hck
        have hnone : ∀ d ∈ c :: t, advIfKey k d = d := by
          intro d hd
          apply advIfKey_self
          rintro ⟨-, hdk⟩
          rcases List.mem_cons.mp hd with rfl | hd
          · exact hck hdk
          · have hcd : popsBefore c d = true := List.rel_of_pairwise_cons hsort hd
            have hle : bytesLe c.key d.key = true := popsBefore_key_le hcd
            rw [hdk] at hle
            have : bytesLt k k = true := bytesLt_of_lt_of_le hckgt hle
            rw [bytesLt_irrefl] at this
            cases this
        refine ⟨?_, hsort, hklow⟩
        have hmapid : (c :: t).map (advIfKey k) = c :: t := by
          conv_rhs => rw [show (c :: t) = (c :: t).map id from (List.map_id _).symm]
          exact List.map_congr_left hnone
        rw [hmapid]
        rw [List.filter_eq_self.mpr (fun d hd => by simpa using hval d hd)]

theorem popsBefore_irrefl (c : Cursor) : popsBefore c c = false := by
  unfold popsBefore
  simp [bytesLt_irrefl]

theorem minStep_fold_none_iff (ss : List Cursor) :
    ∀ acc : Option Cursor,
      (ss.foldl minStep acc = none ↔ acc = none ∧ ∀ c ∈ ss, c.valid = false) := by
  induction ss with
  | nil => intro acc; simp
  | cons x xs ih =>
    intro acc
    rw [List.foldl_cons, ih]
    constructor
    · rintro ⟨h1, h2⟩
      unfold minStep at h1
      by_cases hx : x.valid
      · rw [if_pos hx] at h1
        cases acc with
        | none => simp at h1
        | some m =>
          dsimp only at h1
          split at h1 <;> simp at h1
      · rw [if_neg hx] at h1
        exact ⟨h1, by
          intro c hc
          rcases List.mem_cons.mp hc with rfl | hc
          · exact Bool.eq_false_iff.mpr hx
          · exact h2 c hc⟩
    · rintro ⟨rfl, h2⟩
      have hx : x.valid = false := h2 x (by simp)
      refine ⟨?_, fun c hc => h2 c (by simp [hc])⟩
      unfold minStep
      rw [hx]
      simp

theorem minStep_fold_mem (ss : List Cursor) :
    ∀ (acc : Option Cursor) (c : Cursor),
      ss.foldl minStep acc = some c →
      (c ∈ ss ∧ c.valid = true) ∨ acc = some c := by
  induction ss with
  | nil =>
    intro acc c h
    simp at h
    exact Or.inr h
  | cons x xs ih =>
    intro acc c h
    rw [List.foldl_cons] at h
    rcases ih (minStep acc x) c h with ⟨hmem, hval⟩ | hacc
    · exact Or.inl ⟨by simp [hmem], hval⟩
    · unfold minStep at hacc
      by_cases hx : x.valid
      · rw [if_pos hx] at hacc
        cases hc : acc with
        | none =>
          rw [hc] at hacc
          dsimp only at hacc
          rw [Option.some_inj] at hacc
          subst hacc
          exact Or.inl ⟨by simp, hx⟩
        | some m =>
          rw [hc] at hacc
          dsimp only at hacc
          by_cases hp : popsBefore x m
          · rw [if_pos hp, Option.some_inj] at hacc
            subst hacc
            exact Or.inl ⟨by simp, hx⟩
          · rw [if_neg hp] at hacc
            exact Or.inr hacc
      · rw [if_neg hx] at hacc
        exact Or.inr hacc

theorem minStep_fold_min (ss : List Cursor) :
    ∀ (acc : Option Cursor) (c : Cursor),
      (ss.map Cursor.idx).Nodup →
      (∀ m, acc = some m → m.valid = true) →
      (∀ m, acc = some m → ∀ d ∈ ss, m.idx ≠ d.idx) →
      ss.foldl minStep acc = some c →
      (∀ d ∈ ss, d.valid = true → d.idx ≠ c.idx → popsBefore c d = true) ∧
      (∀ m, acc = some m → m.idx ≠ c.idx → popsBefore c m = true) := by
  induction ss with
  | nil =>
    intro acc c _ _ _ h
    refine ⟨by simp, ?_⟩
    intro m hm hne
    simp at h
    rw [h] at hm
    rw [Option.some_inj] at hm
    exact absurd (by rw [hm]) hne
  | cons x xs ih =>
    intro acc c hnodup hvacc hdd h
    rw [List.foldl_cons] at h
    simp only [List.map_cons, List.nodup_cons] at hnodup
    have hxnotin : x.idx ∉ xs.map Cursor.idx := hnodup.1
    have hvacc' : ∀ m, minStep acc x = some m → m.valid = true := by
      intro m hm
      unfold minStep at hm
      by_cases hx : x.valid
      · rw [if_pos hx] at hm
        cases hc : acc with
        | none =>
          rw [hc] at hm
          dsimp only at hm
          rw [Option.some_inj] at hm
          rw [← hm]
          exact hx
        | some m0 =>
          rw [hc] at hm
          dsimp only at hm
          split at hm
          · rw [Option.some_inj] at hm
            rw [← hm]
            exact hx
          · exact hvacc m (hc.trans hm)
      · rw [if_neg hx] at hm
        exact hvacc m hm
    have hdd' : ∀ m, minStep acc x = some m → ∀ d ∈ xs, m.idx ≠ d.idx := by
      intro m hm d hd
      unfold minStep at hm
      by_cases hx : x.valid
      · rw [if_pos hx] at hm
        cases hc : acc with
        | none =>
          rw [hc] at hm
          dsimp only at hm
          rw [Option.some_inj] at hm
          rw [← hm]
          intro he
          exact hxnotin (by rw [he]; exact List.mem_map_of_mem Cursor.idx hd)
        | some m0 =>
          rw [hc] at hm
          dsimp only at hm
          split at hm
          · rw [Option.some_inj] at hm
            rw [← hm]
            intro he
            exact hxnotin (by rw [he]; exact List.mem_map_of_mem Cursor.idx hd)
          · have : m0 = m := Option.some_inj.mp hm
            rw [← this]
            exact hdd m0 hc d (by simp [hd])
      · rw [if_neg hx] at hm
        exact hdd m hm d (by simp [hd])
    obtain ⟨ihA, ihB⟩ := ih (minStep acc x) c hnodup.2 hvacc' hdd' h
    have hc_from : c ∈ xs ∨ minStep acc x = some c := minStep_fold_mem xs (minStep acc x) c h
      |>.imp (fun p => p.1) id
    constructor
    · intro d hd hdval hdnec
      rcases List.mem_cons.mp hd with rfl | hd2
      · -- d = x
        unfold minStep at ihB hc_from
        rw [if_pos hdval] at ihB hc_from
        cases hc : acc with
        | none =>
          rw [hc] at ihB
          exact ihB d rfl hdnec
        | some m0 =>
          rw [hc] at ihB hc_from
          dsimp only at ihB hc_from
          by_cases hp : popsBefore d m0
          · rw [if_pos hp] at ihB
            exact ihB d rfl hdnec
          · rw [if_neg hp] at ihB hc_from
            have hm0x : m0.idx ≠ d.idx := hdd m0 hc d (by simp)
            have hm0d : popsBefore m0 d = true := by
              rcases popsBefore_total (a := d) (b := m0) (by omega) with h1 | h1
              · exact absurd h1 hp
              · exact h1
            by_cases hm0c : m0.idx = c.idx
            · have : m0 = c := by
                rcases hc_from with hmem | hsome
                · exfalso
                  have hms : minStep acc d = some m0 := by
                    unfold minStep
                    rw [if_pos hdval, hc]
                    dsimp only
                    rw [if_neg hp]
                  exact hdd' m0 hms c hmem hm0c
                · exact Option.some_inj.mp hsome
              rw [← this]
              exact hm0d
            · exact popsBefore_trans (ihB m0 rfl hm0c) hm0d
      · exact ihA d hd2 hdval hdnec
    · intro m0 hm0 hm0ne
      unfold minStep at ihB hc_from
      by_cases hx : x.valid
      · rw [if_pos hx] at ihB hc_from
        rw [hm0] at ihB hc_from
        dsimp only at ihB hc_from
        by_cases hp : popsBefore x m0
        · rw [if_pos hp] at ihB hc_from
          by_cases hxc : x.idx = c.idx
          · have : x = c := by
              rcases hc_from with hmem | hsome
              · exfalso
                exact hxnotin (by rw [hxc]; exact List.mem_map_of_mem Cursor.idx hmem)
              · exact Option.some_inj.mp hsome
            rw [← this]
            exact hp
          · exact popsBefore_trans (ihB x rfl hxc) hp
        · rw [if_neg hp] at ihB
          exact ihB m0 rfl hm0ne
      · rw [if_neg hx] at ihB
        rw [hm0] at ihB
        exact ihB m0 rfl hm0ne

theorem minValid_none_iff (ss : List Cursor) :
    minValidCursor ss = none ↔ ∀ c ∈ ss, c.valid = false := by
  unfold minValidCursor
  rw [minStep_fold_none_iff]
  simp

theorem minValid_mem (ss : List Cursor) (c : Cursor) (h : minValidCursor ss = some c) :
    c ∈ ss ∧ c.valid = true := by
  unfold minValidCursor at h
  rcases minStep_fold_mem ss none c h with h2 | h2
  · exact h2
  · simp at h2

theorem minValid_min (ss : List Cursor) (c : Cursor) (hnodup : (ss.map Cursor.idx).Nodup)
    (h : minValidCursor ss = some c) :
    ∀ d ∈ ss, d.valid = true → d.idx ≠ c.idx → popsBefore c d = true := by
  unfold minValidCursor at h
  exact (minStep_fold_min ss none c hnodup (by simp) (by simp) h).1

theorem idx_inj_of_nodup {ss : List Cursor} (hnodup : (ss.map Cursor.idx).Nodup)
    {a b : Cursor} (ha : a ∈ ss) (hb : b ∈ ss) (hab : a.idx = b.idx) : a = b := by
  exact List.inj_on_of_nodup_map hnodup ha hb hab

theorem minValid_perm {ss ss' : List Cursor} (hperm : List.Perm ss ss')
    (hnodup : (ss.map Cursor.idx).Nodup) :
    minValidCursor ss = minValidCursor ss' := by
  have hnodup' : (ss'.map Cursor.idx).Nodup :=
    (List.Perm.nodup_iff (List.Perm.map _ hperm)).mp hnodup
  cases h1 : minValidCursor ss with
  | none =>
    cases h2 : minValidCursor ss' with
    | none => rfl
    | some c' =>
      obtain ⟨hm, hv⟩ := minValid_mem ss' c' h2
      have := (minValid_none_iff ss).mp h1 c' (hperm.symm.subset hm)
      rw [hv] at this
      cases this
  | some c =>
    cases h2 : minValidCursor ss' with
    | none =>
      obtain ⟨hm, hv⟩ := minValid_mem ss c h1
      have := (minValid_none_iff ss').mp h2 c (hperm.subset hm)
      rw [hv] at this
      cases this
    | some c' =>
      obtain ⟨hm1, hv1⟩ := minValid_mem ss c h1
      obtain ⟨hm2, hv2⟩ := minValid_mem ss' c' h2
      have hm2' : c' ∈ ss := hperm.symm.subset hm2
      by_cases hidx : c'.idx = c.idx
      · rw [idx_inj_of_nodup hnodup hm2' hm1 hidx]
      · have hA : popsBefore c c' = true := minValid_min ss c hnodup h1 c' hm2' hv2 hidx
        have hB : popsBefore c' c = true :=
          minValid_min ss' c' hnodup' h2 c (hperm.subset hm1) hv1 (fun he => hidx he.symm)
        rw [popsBefore_asymm hA] at hB
        cases hB

theorem minStep_fold_filter (ss : List Cursor) :
    ∀ acc : Option Cursor,
      (ss.filter (fun c => c.valid)).foldl minStep acc = ss.foldl minStep acc := by
  induction ss with
  | nil => intro acc; rfl
  | cons x xs ih =>
    intro acc
    rw [List.filter_cons]
    by_cases hx : x.valid
    · rw [if_pos (by simpa using hx)]
      rw [List.foldl_cons, List.foldl_cons, ih]
    · rw [if_neg (by simpa using hx)]
      rw [ih, List.foldl_cons]
      congr 1
      unfold minStep
      rw [if_neg hx]

theorem minValid_filter (ss : List Cursor) :
    minValidCursor (ss.filter (fun c => c.valid)) = minValidCursor ss := by
  unfold minValidCursor
  exact minStep_fold_filter ss none

theorem advIfKey_map_idx (k : List Nat) (ss : List Cursor) :
    (ss.map (advIfKey k)).map Cursor.idx = ss.map Cursor.idx := by
  rw [List.map_map]
  exact List.map_congr_left (fun c _ => advIfKey_idx k c)

theorem mergeSpec_perm :
    ∀ (fuel : Nat) {ss ss' : List Cursor}, List.Perm ss ss' →
      (ss.map Cursor.idx).Nodup → mergeSpecF fuel ss = mergeSpecF fuel ss' := by
  intro fuel
  induction fuel with
  | zero => intro ss ss' _ _; rfl
  | succ fuel ih =>
    intro ss ss' hperm hnodup
    unfold mergeSpecF
    rw [minValid_perm hperm hnodup]
    cases h : minValidCursor ss' with
    | none => rfl
    | some c =>
      dsimp only
      have hperm2 : List.Perm (ss.map (advIfKey c.key)) (ss'.map (advIfKey c.key)) :=
        List.Perm.map _ hperm
      have hnodup2 : ((ss.map (advIfKey c.key)).map Cursor.idx).Nodup := by
        rw [advIfKey_map_idx]
        exact hnodup
      rw [ih hperm2 hnodup2]

theorem filter_map_advIfKey (k : List Nat) (ss : List Cursor) :
    (ss.map (advIfKey k)).filter (fun c => c.valid) =
      ((ss.filter (fun c => c.valid)).map (advIfKey k)).filter (fun c => c.valid) := by
  induction ss with
  | nil => rfl
  | cons x xs ih =>
    by_cases hx : x.valid
    · rw [show (x :: xs).filter (fun c => c.valid) = x :: xs.filter (fun c => c.valid) by
        rw [List.filter_cons, if_pos (by simpa using hx)]]
      simp only [List.map_cons, List.filter_cons]
      rw [ih]
    · rw [show (x :: xs).filter (fun c => c.valid) = xs.filter (fun c => c.valid) by
        rw [List.filter_cons, if_neg (by simpa using hx)]]
      have hadv : advIfKey k x = x := advIfKey_self (fun hand => by
        rw [hand.1] at hx
        exact hx rfl)
      simp only [List.map_cons, List.filter_cons, hadv]
      rw [if_neg (by simpa using hx), ih]

theorem mergeSpec_filter :
    ∀ (fuel : Nat) (ss : List Cursor),
      mergeSpecF fuel ss = mergeSpecF fuel (ss.filter (fun c => c.valid)) := by
  intro fuel
  induction fuel with
  | zero => intro ss; rfl
  | succ fuel ih =>
    intro ss
    unfold mergeSpecF
    rw [minValid_filter]
    cases h : minValidCursor ss with
    | none => rfl
    | some c =>
      dsimp only
      rw [ih (ss.map (advIfKey c.key)), ih ((ss.filter (fun c => c.valid)).map (advIfKey c.key))]
      rw [filter_map_advIfKey]

theorem mergeSpec_out_head (fuel : Nat) (ss : List Cursor) (e : Entry) (rest : List Entry)
    (h : mergeSpecF fuel ss = e :: rest) :
    ∃ c ∈ ss, c.valid = true ∧ c.key = e.key := by
  cases fuel with
  | zero => simp [mergeSpecF] at h
  | succ fuel =>
    unfold mergeSpecF at h
    cases hm : minValidCursor ss with
    | none => rw [hm] at h; simp at h
    | some c =>
      rw [hm] at h
      obtain ⟨hmem, hval⟩ := minValid_mem ss c hm
      refine ⟨c, hmem, hval, ?_⟩
      have := List.head_eq_of_cons_eq h
      rw [← this]

theorem mergeSpec_ascending :
    ∀ (fuel : Nat) (ss : List Cursor),
      (∀ c ∈ ss, ascendingKeys c.entries = true) →
      (ss.map Cursor.idx).Nodup →
      ascendingKeys (mergeSpecF fuel ss) = true := by
  intro fuel
  induction fuel with
  | zero => intro ss _ _; rfl
  | succ fuel ih =>
    intro ss hasc hnodup
    unfold mergeSpecF
    cases hm : minValidCursor ss with
    | none => rfl
    | some c =>
      dsimp only
      obtain ⟨hmem, hval⟩ := minValid_mem ss c hm
      have hasc2 : ∀ d ∈ ss.map (advIfKey c.key), ascendingKeys d.entries = true := by
        intro d hd
        obtain ⟨d0, hd0, rfl⟩ := List.mem_map.mp hd
        unfold advIfKey
        split
        · exact ascendingKeys_tail_list d0.entries (hasc d0 hd0)
        · exact hasc d0 hd0
      have hnodup2 : ((ss.map (advIfKey c.key)).map Cursor.idx).Nodup := by
        rw [advIfKey_map_idx]
        exact hnodup
      have htail := ih (ss.map (advIfKey c.key)) hasc2 hnodup2
      cases hrest : mergeSpecF fuel (ss.map (advIfKey c.key)) with
      | nil =>
        show ascendingKeys [⟨c.key, c.value⟩] = true
        rfl
      | cons e2 rest2 =>
        show ascendingKeys (⟨c.key, c.value⟩ :: e2 :: rest2) = true
        unfold ascendingKeys
        rw [Bool.and_eq_true_iff]
        constructor
        · -- c.key < e2.key
          obtain ⟨d, hdmem, hdval, hdkey⟩ :=
            mergeSpec_out_head fuel (ss.map (advIfKey c.key)) e2 rest2 hrest
          obtain ⟨d0, hd0, rfl⟩ := List.mem_map.mp hdmem
          rw [← hdkey]
          by_cases hhit : d0.valid = true ∧ d0.key = c.key
          · rw [advIfKey_hit hhit.1 hhit.2]
            rw [advIfKey_hit hhit.1 hhit.2] at hdval
            rw [← hhit.2]
            exact cursor_next_key_gt d0 (hasc d0 hd0) hdval
          · rw [advIfKey_self hhit]
            rw [advIfKey_self hhit] at hdval
            have hdne : d0.key ≠ c.key := by
              intro he
              exact hhit ⟨hdval, he⟩
            by_cases hidx : d0.idx = c.idx
            · exact absurd (idx_inj_of_nodup hnodup hd0 hmem hidx ▸ rfl) hdne
            · have hpb : popsBefore c d0 = true :=
                minValid_min ss c hnodup hm d0 hd0 hdval hidx
              rcases (bytesLe_iff _ _).1 (popsBefore_key_le hpb) with h1 | h1
              · exact h1
              · exact absurd h1.symm hdne
        · rw [← hrest]
          exact htail

theorem minStep_fold_const (l : List Cursor) :
    ∀ c : Cursor, (∀ d ∈ l, popsBefore d c = false) →
      l.foldl minStep (some c) = some c := by
  induction l with
  | nil => intro c _; rfl
  | cons x xs ih =>
    intro c hd
    rw [List.foldl_cons]
    have hstep : minStep (some c) x = some c := by
      unfold minStep
      by_cases hx : x.valid
      · rw [if_pos hx]
        dsimp only
        rw [hd x (by simp)]
        simp
      · rw [if_neg hx]
    rw [hstep]
    exact ih c (fun d hdm => hd d (by simp [hdm]))

theorem minValid_cons_of_min (c : Cursor) (l : List Cursor) (hv : c.valid = true)
    (hmin : ∀ d ∈ l, popsBefore c d = true) : minValidCursor (c :: l) = some c := by
  unfold minValidCursor
  rw [List.foldl_cons]
  have hstep : minStep none c = some c := by
    unfold minStep
    rw [if_pos hv]
  rw [hstep]
  exact minStep_fold_const l c (fun d hdm => popsBefore_asymm (hmin d hdm))

theorem advIfKey_asc (k : List Nat) (s : Cursor) (hs : ascendingKeys s.entries = true) :
    ascendingKeys (advIfKey k s).entries = true := by
  unfold advIfKey
  split
  · exact ascendingKeys_tail_list s.entries hs
  · exact hs

theorem drain_eq_mergeSpec :
    ∀ (fuel : Nat) (m : MergeIterator),
      (∀ c ∈ m.iters, c.valid = true) →
      List.Pairwise (fun a b => popsBefore a b = true) m.iters →
      (∀ cur, m.current = some cur → ∀ c ∈ m.iters, popsBefore cur c = true) →
      (∀ c ∈ curHeap m, ascendingKeys c.entries = true) →
      ((curHeap m).map Cursor.idx).Nodup →
      (m.isValid = false → m.iters = []) →
      MergeIterator.drainF fuel m = mergeSpecF fuel (curHeap m) := by
  intro fuel
  induction fuel with
  | zero => intro m _ _ _ _ _ _; rfl
  | succ fuel ih =>
    intro m hval hsort hcurmin hasc hnodup hfalse
    by_cases hv : m.isValid = true
    · -- valid: one output step, then the tail by the induction hypothesis
      cases hcur : m.current with
      | none =>
        unfold MergeIterator.isValid at hv
        rw [hcur] at hv
        simp at hv
      | some cur =>
        have hcv : cur.valid = true := by
          unfold MergeIterator.isValid at hv
          rw [hcur] at hv
          exact hv
        have hch : curHeap m = cur :: m.iters := by
          unfold curHeap
          rw [hcur]
        have hcurmin' : ∀ c ∈ m.iters, popsBefore cur c = true := hcurmin cur hcur
        have hklow : ∀ c ∈ m.iters, bytesLe cur.key c.key = true :=
          fun c hcm => popsBefore_key_le (hcurmin' c hcm)
        have hasc_it : ∀ c ∈ m.iters, ascendingKeys c.entries = true := by
          intro c hcm
          exact hasc c (by rw [hch]; exact List.mem_cons_of_mem _ hcm)
        have hasc_cur : ascendingKeys cur.entries = true :=
          hasc cur (by rw [hch]; exact List.mem_cons_self _ _)
        have hnodup' : ((cur :: m.iters).map Cursor.idx).Nodup := by
          rw [← hch]
          exact hnodup
        have hnodup_it : (m.iters.map Cursor.idx).Nodup := by
          have h := hnodup'
          simp only [List.map_cons, List.nodup_cons] at h
          exact h.2
        have hcur_notin : cur.idx ∉ m.iters.map Cursor.idx := by
          have h := hnodup'
          simp only [List.map_cons, List.nodup_cons] at h
          exact h.1
        obtain ⟨hdper, hdsort, hdklow⟩ :=
          drainEq_spec cur.key (heapSize m.iters + 1) m.iters hval hsort hasc_it hklow
            hnodup_it (by omega)
        have hval1 : ∀ c ∈ drainEqF cur.key (heapSize m.iters + 1) m.iters, c.valid = true := by
          intro c hcm
          have h1 := hdper.mem_iff.mp hcm
          exact List.of_mem_filter h1
        have hasc1 : ∀ c ∈ drainEqF cur.key (heapSize m.iters + 1) m.iters,
            ascendingKeys c.entries = true := by
          intro c hcm
          obtain ⟨d, hdm, hde⟩ := List.mem_map.mp (List.mem_of_mem_filter (hdper.mem_iff.mp hcm))
          rw [← hde]
          exact advIfKey_asc _ d (hasc_it d hdm)
        have hsub1 : ∀ i ∈ (drainEqF cur.key (heapSize m.iters + 1) m.iters).map Cursor.idx,
            i ∈ m.iters.map Cursor.idx := by
          intro i him
          obtain ⟨c, hcm, hci⟩ := List.mem_map.mp him
          obtain ⟨d, hdm, hde⟩ := List.mem_map.mp (List.mem_of_mem_filter (hdper.mem_iff.mp hcm))
          rw [← hci, ← hde, advIfKey_idx]
          exact List.mem_map_of_mem Cursor.idx hdm
        have hnodup1 : ((drainEqF cur.key (heapSize m.iters + 1) m.iters).map Cursor.idx).Nodup := by
          have hadvn : ((m.iters.map (advIfKey cur.key)).map Cursor.idx).Nodup := by
            rw [advIfKey_map_idx]
            exact hnodup_it
          have hsubl : List.Sublist ((m.iters.map (advIfKey cur.key)).filter (fun c => c.valid))
              (m.iters.map (advIfKey cur.key)) := List.filter_sublist _
          have hsubn := (hsubl.map Cursor.idx).nodup hadvn
          exact ((hdper.map Cursor.idx).nodup_iff).mpr hsubn
        have hkv : MergeIterator.key m = cur.key := by
          unfold MergeIterator.key
          rw [hcur]
        have hvv : MergeIterator.value m = cur.value := by
          unfold MergeIterator.value
          rw [hcur]
        have hadv_cur : advIfKey cur.key cur = cur.next := advIfKey_hit hcv rfl
        have hlhs : ∀ m2 : MergeIterator, MergeIterator.next m = some m2 →
            MergeIterator.drainF (fuel + 1) m =
              ⟨cur.key, cur.value⟩ :: MergeIterator.drainF fuel m2 := by
          intro m2 hm2
          rw [MergeIterator.drainF]
          rw [if_pos hv, hm2]
          dsimp only
          rw [hkv, hvv]
        have hrhs : mergeSpecF (fuel + 1) (curHeap m) =
            ⟨cur.key, cur.value⟩ :: mergeSpecF fuel ((cur :: m.iters).map (advIfKey cur.key)) := by
          rw [hch]
          rw [mergeSpecF]
          rw [minValid_cons_of_min cur m.iters hcv hcurmin']
        have hbridge : ∀ m2 : MergeIterator,
            (∀ c ∈ m2.iters, c.valid = true) →
            List.Pairwise (fun a b => popsBefore a b = true) m2.iters →
            (∀ cur2, m2.current = some cur2 → ∀ c ∈ m2.iters, popsBefore cur2 c = true) →
            (∀ c ∈ curHeap m2, ascendingKeys c.entries = true) →
            ((curHeap m2).map Cursor.idx).Nodup →
            (m2.isValid = false → m2.iters = []) →
            List.Perm ((curHeap m2).filter (fun c => c.valid))
              (((cur :: m.iters).map (advIfKey cur.key)).filter (fun c => c.valid)) →
            MergeIterator.drainF fuel m2 =
              mergeSpecF fuel ((cur :: m.iters).map (advIfKey cur.key)) := by
          intro m2 h1 h2 h3 h4 h5 h6 hperm
          rw [ih m2 h1 h2 h3 h4 h5 h6]
          rw [mergeSpec_filter fuel (curHeap m2)]
          have hsubl2 : List.Sublist ((curHeap m2).filter (fun c => c.valid)) (curHeap m2) :=
            List.filter_sublist _
          have hnc : (((curHeap m2).filter (fun c => c.valid)).map Cursor.idx).Nodup :=
            (hsubl2.map Cursor.idx).nodup h5
          rw [mergeSpec_perm fuel hperm hnc]
          rw [← mergeSpec_filter]
        have hfR : cur.next.valid = true →
            ((cur :: m.iters).map (advIfKey cur.key)).filter (fun c => c.valid)
              = cur.next :: ((m.iters.map (advIfKey cur.key)).filter (fun c => c.valid)) := by
          intro h2
          rw [List.map_cons, hadv_cur]
          simp [List.filter_cons, h2]
        have hfR0 : cur.next.valid = false →
            ((cur :: m.iters).map (advIfKey cur.key)).filter (fun c => c.valid)
              = (m.iters.map (advIfKey cur.key)).filter (fun c => c.valid) := by
          intro h2
          rw [List.map_cons, hadv_cur]
          simp [List.filter_cons, h2]
        by_cases hcv2 : cur.next.valid = true
        · cases hh1 : drainEqF cur.key (heapSize m.iters + 1) m.iters with
          | nil =>
            rw [hh1] at hdper
            have hXnil : (m.iters.map (advIfKey cur.key)).filter (fun c => c.valid) = [] :=
              List.Perm.eq_nil hdper.symm
            have hnext : MergeIterator.next m = some ⟨[], some cur.next⟩ := by
              unfold MergeIterator.next
              rw [hcur]
              dsimp only
              rw [hh1]
              rw [if_neg (show ¬((!cur.next.valid) = true) from by rw [hcv2]; simp)]
            have hcH : curHeap (⟨[], some cur.next⟩ : MergeIterator) = [cur.next] := rfl
            rw [hlhs ⟨[], some cur.next⟩ hnext, hrhs]
            rw [hbridge ⟨[], some cur.next⟩
              (fun c hcm => absurd hcm (List.not_mem_nil c))
              List.Pairwise.nil
              (fun cur2 hec c hcm => absurd hcm (List.not_mem_nil c))
              (by
                intro c hcm
                rw [hcH, List.mem_singleton] at hcm
                rw [hcm]
                exact ascendingKeys_tail_list cur.entries hasc_cur)
              (by rw [hcH]; simp)
              (fun hfi => rfl)
              (by
                rw [hcH, hfR hcv2, hXnil]
                simp [List.filter_cons, hcv2])]
          | cons c1 t1 =>
            rw [hh1] at hdper hdsort hval1 hasc1 hnodup1 hsub1
            have hcuridx_not1 : cur.idx ∉ (c1 :: t1).map Cursor.idx :=
              fun hmem => hcur_notin (hsub1 _ hmem)
            have hidx2 : cur.next.idx = cur.idx := rfl
            by_cases hpb : popsBefore c1 cur.next = true
            · -- advance current; it loses to the new heap top, so it is pushed back
              have htot : ∀ d ∈ t1,
                  popsBefore cur.next d = true ∨ popsBefore d cur.next = true := by
                intro d hd
                apply popsBefore_total
                rw [hidx2]
                intro he
                exact hcuridx_not1
                  (by rw [he]; exact List.mem_map_of_mem Cursor.idx (List.mem_cons_of_mem _ hd))
              have hnext : MergeIterator.next m = some ⟨heapPush cur.next t1, some c1⟩ := by
                unfold MergeIterator.next
                rw [hcur]
                dsimp only
                rw [hh1]
                rw [if_neg (show ¬((!cur.next.valid) = true) from by rw [hcv2]; simp)]
                dsimp only
                rw [if_pos hpb]
              have hcH : curHeap (⟨heapPush cur.next t1, some c1⟩ : MergeIterator)
                  = c1 :: heapPush cur.next t1 := rfl
              have hpermDh : List.Perm (c1 :: heapPush cur.next t1) (c1 :: cur.next :: t1) :=
                List.Perm.cons c1 (heapPush_perm cur.next t1)
              have hv1 : ∀ c ∈ heapPush cur.next t1, c.valid = true := by
                intro c hcm
                rcases (mem_heapPush _ _ _).mp hcm with rfl | hcm
                · exact hcv2
                · exact hval1 c (List.mem_cons_of_mem _ hcm)
              rw [hlhs ⟨heapPush cur.next t1, some c1⟩ hnext, hrhs]
              rw [hbridge ⟨heapPush cur.next t1, some c1⟩
                hv1
                (heapPush_pairwise cur.next t1 (List.Pairwise.of_cons hdsort) htot)
                (by
                  intro cur2 hec c hcm
                  injection hec with hec
                  subst hec
                  rcases (mem_heapPush _ _ _).mp hcm with rfl | hcm
                  · exact hpb
                  · exact List.rel_of_pairwise_cons hdsort hcm)
                (by
                  intro c hcm
                  rw [hcH] at hcm
                  rcases List.mem_cons.mp hcm with rfl | hcm
                  · exact hasc1 c (List.mem_cons_self _ _)
                  · rcases (mem_heapPush _ _ _).mp hcm with rfl | hcm
                    · exact ascendingKeys_tail_list cur.entries hasc_cur
                    · exact hasc1 c (List.mem_cons_of_mem _ hcm))
                (by
                  rw [hcH]
                  rw [List.Perm.nodup_iff (List.Perm.map Cursor.idx hpermDh)]
                  have h1 := hnodup1
                  simp only [List.map_cons, List.nodup_cons] at h1
                  have h2 := hcuridx_not1
                  simp only [List.map_cons, List.mem_cons, not_or] at h2
                  simp only [List.map_cons, List.nodup_cons, hidx2]
                  refine ⟨?_, h2.2, h1.2⟩
                  simp only [List.mem_cons, not_or]
                  exact ⟨fun he => h2.1 he.symm, h1.1⟩)
                (by
                  intro hfi
                  have hfv : c1.valid = false := hfi
                  rw [hval1 c1 (List.mem_cons_self c1 t1)] at hfv
                  cases hfv)
                (by
                  rw [hcH, hfR hcv2]
                  have hfL : (c1 :: heapPush cur.next t1).filter (fun c => c.valid)
                      = c1 :: heapPush cur.next t1 := by
                    rw [List.filter_eq_self]
                    intro a ha
                    rcases List.mem_cons.mp ha with rfl | ha
                    · exact hval1 a (List.mem_cons_self _ _)
                    · exact hv1 a ha
                  rw [hfL]
                  exact (hpermDh.trans (List.Perm.swap cur.next c1 t1)).trans
                    (List.Perm.cons cur.next hdper))]
            · -- advance current; it still pops before the heap top
              have hne2 : cur.next.idx ≠ c1.idx := by
                rw [hidx2]
                intro he
                exact hcuridx_not1
                  (by rw [he]; exact List.mem_map_of_mem Cursor.idx (List.mem_cons_self c1 t1))
              have hpb2 : popsBefore cur.next c1 = true := by
                rcases popsBefore_total hne2 with h | h
                · exact h
                · exact absurd h hpb
              have hnext : MergeIterator.next m = some ⟨c1 :: t1, some cur.next⟩ := by
                unfold MergeIterator.next
                rw [hcur]
                dsimp only
                rw [hh1]
                rw [if_neg (show ¬((!cur.next.valid) = true) from by rw [hcv2]; simp)]
                dsimp only
                rw [if_neg hpb]
              have hcH : curHeap (⟨c1 :: t1, some cur.next⟩ : MergeIterator)
                  = cur.next :: c1 :: t1 := rfl
              rw [hlhs ⟨c1 :: t1, some cur.next⟩ hnext, hrhs]
              rw [hbridge ⟨c1 :: t1, some cur.next⟩
                hval1
                hdsort
                (by
                  intro cur2 hec c hcm
                  injection hec with hec
                  subst hec
                  rcases List.mem_cons.mp hcm with rfl | hcm
                  · exact hpb2
                  · exact popsBefore_trans hpb2 (List.rel_of_pairwise_cons hdsort hcm))
                (by
                  intro c hcm
                  rw [hcH] at hcm
                  rcases List.mem_cons.mp hcm with rfl | hcm
                  · exact ascendingKeys_tail_list cur.entries hasc_cur
                  · exact hasc1 c hcm)
                (by
                  rw [hcH]
                  have h1 := hnodup1
                  have h2 := hcuridx_not1
                  simp only [List.map_cons, List.nodup_cons, hidx2] at h1 ⊢
                  simp only [List.map_cons] at h2
                  exact ⟨h2, h1⟩)
                (by
                  intro hfi
                  have hfv : cur.next.valid = false := hfi
                  rw [hcv2] at hfv
                  cases hfv)
                (by
                  rw [hcH, hfR hcv2]
                  have hfL : (cur.next :: c1 :: t1).filter (fun c => c.valid)
                      = cur.next :: c1 :: t1 := by
                    rw [List.filter_eq_self]
                    intro a ha
                    rcases List.mem_cons.mp ha with rfl | ha
                    · exact hcv2
                    · exact hval1 a ha
                  rw [hfL]
                  exact List.Perm.cons cur.next hdper)]
        · have hcv2f : cur.next.valid = false := by
            cases hb : cur.next.valid
            · rfl
            · exact absurd hb hcv2
          cases hh1 : drainEqF cur.key (heapSize m.iters + 1) m.iters with
          | nil =>
            rw [hh1] at hdper
            have hXnil : (m.iters.map (advIfKey cur.key)).filter (fun c => c.valid) = [] :=
              List.Perm.eq_nil hdper.symm
            have hnext : MergeIterator.next m = some ⟨[], some cur.next⟩ := by
              unfold MergeIterator.next
              rw [hcur]
              dsimp only
              rw [hh1]
              rw [if_pos (show (!cur.next.valid) = true from by rw [hcv2f]; rfl)]
            have hcH : curHeap (⟨[], some cur.next⟩ : MergeIterator) = [cur.next] := rfl
            rw [hlhs ⟨[], some cur.next⟩ hnext, hrhs]
            rw [hbridge ⟨[], some cur.next⟩
              (fun c hcm => absurd hcm (List.not_mem_nil c))
              List.Pairwise.nil
              (fun cur2 hec c hcm => absurd hcm (List.not_mem_nil c))
              (by
                intro c hcm
                rw [hcH, List.mem_singleton] at hcm
                rw [hcm]
                exact ascendingKeys_tail_list cur.entries hasc_cur)
              (by rw [hcH]; simp)
              (fun hfi => rfl)
              (by
                rw [hcH, hfR0 hcv2f, hXnil]
                simp [List.filter_cons, hcv2f])]
          | cons c1 t1 =>
            rw [hh1] at hdper hdsort hval1 hasc1 hnodup1 hsub1
            have hnext : MergeIterator.next m = some ⟨t1, some c1⟩ := by
              unfold MergeIterator.next
              rw [hcur]
              dsimp only
              rw [hh1]
              rw [if_pos (show (!cur.next.valid) = true from by rw [hcv2f]; rfl)]
            have hcH : curHeap (⟨t1, some c1⟩ : MergeIterator) = c1 :: t1 := rfl
            rw [hlhs ⟨t1, some c1⟩ hnext, hrhs]
            rw [hbridge ⟨t1, some c1⟩
              (fun c hcm => hval1 c (List.mem_cons_of_mem _ hcm))
              (List.Pairwise.of_cons hdsort)
              (by
                intro cur2 hec c hcm
                injection hec with hec
                subst hec
                exact List.rel_of_pairwise_cons hdsort hcm)
              (by
                intro c hcm
                rw [hcH] at hcm
                exact hasc1 c hcm)
              (by
                rw [hcH]
                exact hnodup1)
              (by
                intro hfi
                have hfv : c1.valid = false := hfi
                rw [hval1 c1 (List.mem_cons_self c1 t1)] at hfv
                cases hfv)
              (by
                rw [hcH, hfR0 hcv2f]
                have hfL : (c1 :: t1).filter (fun c => c.valid) = c1 :: t1 := by
                  rw [List.filter_eq_self]
                  intro a ha
                  exact hval1 a ha
                rw [hfL]
                exact hdper)]
    · -- not valid: both sides are empty
      have hne : m.isValid = false := by
        cases hb : m.isValid
        · rfl
        · exact absurd hb hv
      have hiters : m.iters = [] := hfalse hne
      have hdrain : MergeIterator.drainF (fuel + 1) m = [] := by
        unfold MergeIterator.drainF
        rw [if_neg hv]
      rw [hdrain]
      cases hcur : m.current with
      | none =>
        have hch0 : curHeap m = [] := by
          unfold curHeap
          rw [hcur]
        rw [hch0]
        rfl
      | some cur =>
        have hcv0 : cur.valid = false := by
          unfold MergeIterator.isValid at hne
          rw [hcur] at hne
          exact hne
        have hch0 : curHeap m = [cur] := by
          unfold curHeap
          rw [hcur, hiters]
        rw [hch0]
        have hmv : minValidCursor [cur] = none := by
          rw [minValid_none_iff]
          intro c hcm
          rw [List.mem_singleton] at hcm
          rw [hcm]
          exact hcv0
        unfold mergeSpecF
        rw [hmv]

theorem foldl_heapPush_perm (f : Nat × List Entry → Cursor) :
    ∀ (l : List (Nat × List Entry)) (acc : List Cursor),
      List.Perm (l.foldl (fun h p => heapPush (f p) h) acc) (l.map f ++ acc) := by
  intro l
  induction l with
  | nil => intro acc; exact List.Perm.refl _
  | cons x xs ih =>
    intro acc
    rw [List.foldl_cons, List.map_cons]
    have h1 := ih (heapPush (f x) acc)
    have h2 : List.Perm (xs.map f ++ heapPush (f x) acc) (xs.map f ++ (f x :: acc)) :=
      List.Perm.append_left _ (heapPush_perm (f x) acc)
    exact (h1.trans h2).trans List.perm_middle

theorem foldl_heapPush_pairwise (f : Nat × List Entry → Cursor) :
    ∀ (l : List (Nat × List Entry)) (acc : List Cursor),
      List.Pairwise (fun a b => popsBefore a b = true) acc →
      ((l.map f ++ acc).map Cursor.idx).Nodup →
      List.Pairwise (fun a b => popsBefore a b = true)
        (l.foldl (fun h p => heapPush (f p) h) acc) := by
  intro l
  induction l with
  | nil => intro acc h _; exact h
  | cons x xs ih =>
    intro acc hacc hnd
    have hnd' : ((f x).idx :: (xs.map f ++ acc).map Cursor.idx).Nodup := by
      simpa only [List.map_cons, List.cons_append] using hnd
    have hnotin : (f x).idx ∉ (xs.map f ++ acc).map Cursor.idx := (List.nodup_cons.mp hnd').1
    rw [List.foldl_cons]
    apply ih
    · apply heapPush_pairwise _ _ hacc
      intro d hd
      apply popsBefore_total
      intro he
      exact hnotin
        (by rw [he]; exact List.mem_map_of_mem Cursor.idx (List.mem_append.mpr (Or.inr hd)))
    · have hp : List.Perm (xs.map f ++ heapPush (f x) acc) (f x :: (xs.map f ++ acc)) :=
        (List.Perm.append_left _ (heapPush_perm (f x) acc)).trans List.perm_middle
      rw [List.Perm.nodup_iff (List.Perm.map Cursor.idx hp)]
      simpa only [List.map_cons] using hnd'

theorem cursorsOf_filter_valid (streams : List (List Entry)) :
    (cursorsOf streams).filter (fun c => c.valid)
      = (streams.enum.filter fun p => !p.2.isEmpty).map
          (fun p : Nat × List Entry => (⟨p.1, p.2⟩ : Cursor)) := by
  unfold cursorsOf
  induction streams.enum with
  | nil => rfl
  | cons x xs ih =>
    rw [List.map_cons, List.filter_cons, List.filter_cons]
    by_cases hx : (!x.2.isEmpty) = true
    · have hx' : Cursor.valid ⟨x.1, x.2⟩ = true := hx
      rw [if_pos hx', if_pos hx, List.map_cons, ih]
    · have hx' : ¬(Cursor.valid ⟨x.1, x.2⟩ = true) := hx
      rw [if_neg hx', if_neg hx, ih]

theorem cursorsOf_idx (streams : List (List Entry)) :
    (cursorsOf streams).map Cursor.idx = List.range streams.length := by
  unfold cursorsOf
  rw [List.map_map]
  have h : (Cursor.idx ∘ fun p : Nat × List Entry => (⟨p.1, p.2⟩ : Cursor)) = Prod.fst := rfl
  rw [h, List.enum_map_fst]

theorem mem_cursorsOf_entries {streams : List (List Entry)} {c : Cursor}
    (h : c ∈ cursorsOf streams) : c.entries ∈ streams := by
  unfold cursorsOf at h
  obtain ⟨p, hp, hpe⟩ := List.mem_map.mp h
  rw [List.enum_eq_zip_range] at hp
  have h2 := (List.of_mem_zip hp).2
  rw [← hpe]
  exact h2

theorem create_curHeap (streams : List (List Entry)) :
    curHeap (MergeIterator.create streams) =
      (streams.enum.filter fun p => !p.2.isEmpty).foldl
        (fun h p => heapPush ⟨p.1, p.2⟩ h) [] := by
  unfold MergeIterator.create
  dsimp only
  cases hh : ((streams.enum.filter fun p => !p.2.isEmpty).foldl
      (fun h p => heapPush ⟨p.1, p.2⟩ h) []) with
  | nil => rfl
  | cons c rest => rfl

theorem create_drain_spec (streams : List (List Entry))
    (hstr : ∀ s ∈ streams, ascendingKeys s = true) (fuel : Nat) :
    MergeIterator.drainF fuel (MergeIterator.create streams)
      = mergeSpecF fuel (cursorsOf streams) := by
  have hfperm : List.Perm
      ((streams.enum.filter fun p => !p.2.isEmpty).foldl (fun h p => heapPush ⟨p.1, p.2⟩ h) [])
      ((cursorsOf streams).filter (fun c => c.valid)) := by
    have h1 := foldl_heapPush_perm (fun p : Nat × List Entry => (⟨p.1, p.2⟩ : Cursor))
      (streams.enum.filter fun p => !p.2.isEmpty) []
    rw [List.append_nil] at h1
    rw [cursorsOf_filter_valid]
    exact h1
  have hfnodup : (((cursorsOf streams).filter (fun c => c.valid)).map Cursor.idx).Nodup := by
    have hsubl : List.Sublist ((cursorsOf streams).filter (fun c => c.valid))
        (cursorsOf streams) := List.filter_sublist _
    refine (hsubl.map Cursor.idx).nodup ?_
    rw [cursorsOf_idx]
    exact List.nodup_range _
  have hheap_nodup : (((streams.enum.filter fun p => !p.2.isEmpty).foldl
      (fun h p => heapPush ⟨p.1, p.2⟩ h) []).map Cursor.idx).Nodup := by
    rw [List.Perm.nodup_iff (List.Perm.map Cursor.idx hfperm)]
    exact hfnodup
  have hheap_val : ∀ c ∈ ((streams.enum.filter fun p => !p.2.isEmpty).foldl
      (fun h p => heapPush ⟨p.1, p.2⟩ h) []), c.valid = true := by
    intro c hcm
    exact List.of_mem_filter (hfperm.mem_iff.mp hcm)
  have hheap_asc : ∀ c ∈ ((streams.enum.filter fun p => !p.2.isEmpty).foldl
      (fun h p => heapPush ⟨p.1, p.2⟩ h) []), ascendingKeys c.entries = true := by
    intro c hcm
    have h2 := List.mem_of_mem_filter (hfperm.mem_iff.mp hcm)
    exact hstr c.entries (mem_cursorsOf_entries h2)
  have hheap_sort : List.Pairwise (fun a b => popsBefore a b = true)
      ((streams.enum.filter fun p => !p.2.isEmpty).foldl
        (fun h p => heapPush ⟨p.1, p.2⟩ h) []) := by
    apply foldl_heapPush_pairwise
    · exact List.Pairwise.nil
    · rw [List.append_nil]
      rw [show ((streams.enum.filter fun p => !p.2.isEmpty).map
          (fun p : Nat × List Entry => (⟨p.1, p.2⟩ : Cursor))) =
        ((cursorsOf streams).filter (fun c => c.valid)) from
          (cursorsOf_filter_valid streams).symm]
      exact hfnodup
  have hcreate_cases : (MergeIterator.create streams = ⟨[], none⟩ ∧
      ((streams.enum.filter fun p => !p.2.isEmpty).foldl
        (fun h p => heapPush ⟨p.1, p.2⟩ h) []) = []) ∨
      ∃ c0 rest0, MergeIterator.create streams = ⟨rest0, some c0⟩ ∧
        ((streams.enum.filter fun p => !p.2.isEmpty).foldl
          (fun h p => heapPush ⟨p.1, p.2⟩ h) []) = c0 :: rest0 := by
    unfold MergeIterator.create
    dsimp only
    cases hh : ((streams.enum.filter fun p => !p.2.isEmpty).foldl
        (fun h p => heapPush ⟨p.1, p.2⟩ h) []) with
    | nil => exact Or.inl ⟨rfl, rfl⟩
    | cons c0 rest0 => exact Or.inr ⟨c0, rest0, rfl, rfl⟩
  rcases hcreate_cases with ⟨hcr, hh⟩ | ⟨c0, rest0, hcr, hh⟩
  · rw [hcr]
    rw [drain_eq_mergeSpec fuel ⟨[], none⟩
      (fun c hcm => absurd hcm (List.not_mem_nil c))
      List.Pairwise.nil
      (fun cur hec => nomatch hec)
      (fun c hcm => absurd hcm (List.not_mem_nil c))
      List.nodup_nil
      (fun hfi => rfl)]
    have hXnil : (cursorsOf streams).filter (fun c => c.valid) = [] := by
      rw [hh] at hfperm
      exact List.Perm.eq_nil hfperm.symm
    rw [mergeSpec_filter fuel (cursorsOf streams), hXnil]
    rfl
  · rw [hcr]
    rw [hh] at hfperm hheap_nodup hheap_val hheap_asc hheap_sort
    rw [drain_eq_mergeSpec fuel ⟨rest0, some c0⟩
      (fun c hcm => hheap_val c (List.mem_cons_of_mem _ hcm))
      (List.Pairwise.of_cons hheap_sort)
      (by
        intro cur hec c hcm
        injection hec with hec
        subst hec
        exact List.rel_of_pairwise_cons hheap_sort hcm)
      (fun c hcm => hheap_asc c hcm)
      hheap_nodup
      (by
        intro hfi
        have hfv : c0.valid = false := hfi
        rw [hheap_val c0 (List.mem_cons_self c0 rest0)] at hfv
        cases hfv)]
    have hch0 : curHeap (⟨rest0, some c0⟩ : MergeIterator) = c0 :: rest0 := rfl
    rw [hch0]
    rw [mergeSpec_perm fuel hfperm hheap_nodup]
    rw [← mergeSpec_filter]

/-- C3: for every list of cursors each yielding strictly ascending keys, the
`MergeIterator` built by `create` and drained by `next` produces exactly the
reference k-way merge of the indexed streams (`mergeSpecF`): a strictly
ascending key sequence over the union of the inputs in which each emitted key
carries the value of the smallest-indexed stream holding it, and every stream
whose head holds that key is advanced past it. In particular stream 0 =
[("a","A0"),("b","B0")] merged with stream 1 = [("a","A1"),("c","C1")] yields
("a","A0"), ("b","B0"), ("c","C1"). -/
theorem c3_merge_yields_ascending_spec (streams : List (List Entry)) (fuel : Nat)
    (hstr : ∀ s ∈ streams, ascendingKeys s = true) :
    MergeIterator.drainF fuel (MergeIterator.create streams)
        = mergeSpecF fuel (cursorsOf streams) ∧
    ascendingKeys (MergeIterator.drainF fuel (MergeIterator.create streams)) = true ∧
    MergeIterator.drainF 4 (MergeIterator.create
        [[⟨[97], [65, 48]⟩, ⟨[98], [66, 48]⟩], [⟨[97], [65, 49]⟩, ⟨[99], [67, 49]⟩]])
      = [⟨[97], [65, 48]⟩, ⟨[98], [66, 48]⟩, ⟨[99], [67, 49]⟩] := by
  have hmain := create_drain_spec streams hstr fuel
  refine ⟨hmain, ?_, by decide⟩
  rw [hmain]
  apply mergeSpec_ascending
  · intro c hcm
    exact hstr c.entries (mem_cursorsOf_entries hcm)
  · rw [cursorsOf_idx]
    exact List.nodup_range _

theorem c3_witness :
    (∀ s ∈ [[(⟨[97], [65, 48]⟩ : Entry), ⟨[98], [66, 48]⟩],
        [⟨[97], [65, 49]⟩, ⟨[99], [67, 49]⟩]], ascendingKeys s = true) ∧
    (MergeIterator.drainF 4 (MergeIterator.create
        [[⟨[97], [65, 48]⟩, ⟨[98], [66, 48]⟩], [⟨[97], [65, 49]⟩, ⟨[99], [67, 49]⟩]])
      = mergeSpecF 4 (cursorsOf
        [[⟨[97], [65, 48]⟩, ⟨[98], [66, 48]⟩], [⟨[97], [65, 49]⟩, ⟨[99], [67, 49]⟩]]) ∧
    ascendingKeys (MergeIterator.drainF 4 (MergeIterator.create
        [[⟨[97], [65, 48]⟩, ⟨[98], [66, 48]⟩], [⟨[97], [65, 49]⟩, ⟨[99], [67, 49]⟩]])) = true ∧
    MergeIterator.drainF 4 (MergeIterator.create
        [[⟨[97], [65, 48]⟩, ⟨[98], [66, 48]⟩], [⟨[97], [65, 49]⟩, ⟨[99], [67, 49]⟩]])
      = [⟨[97], [65, 48]⟩, ⟨[98], [66, 48]⟩, ⟨[99], [67, 49]⟩]) :=
  ⟨by decide, c3_merge_yields_ascending_spec
    [[⟨[97], [65, 48]⟩, ⟨[98], [66, 48]⟩], [⟨[97], [65, 49]⟩, ⟨[99], [67, 49]⟩]] 4 (by decide)⟩
